import Mathlib

/-!
Verification development for `ytdl2rss`, a tool that converts youtube-dl
`.info.json` metadata documents into a podcast RSS feed.

The definitions below are a shallow embedding of the functions in
`src/ytdl2rss.py`.  JSON values are modelled by the inductive `JVal`;
Python dictionaries holding JSON data are modelled as association lists
with string keys (`Dict`).  Python truthiness of JSON values is `jTruthy`,
and Python dictionary equality (same keys bound to equal values, order
independent) is `dictEqb`.
-/

/-- A JSON value as handled by the tool (Python objects parsed by
`json.load`). -/
inductive JVal where
  | null : JVal
  | bool : Bool → JVal
  | int : Int → JVal
  | str : String → JVal
  | arr : List JVal → JVal
  | obj : List (String × JVal) → JVal

/-- A Python dictionary with string keys and JSON values. -/
abbrev Dict := List (String × JVal)

mutual

/-- Structural equality of JSON values (Python `==` on parsed JSON). -/
def jvalBeq : JVal → JVal → Bool
  | .null, .null => true
  | .bool a, .bool b => a == b
  | .int a, .int b => a == b
  | .str a, .str b => a == b
  | .arr a, .arr b => jvalListBeq a b
  | .obj a, .obj b => jvalObjBeq a b
  | _, _ => false

/-- Elementwise equality of JSON arrays. -/
def jvalListBeq : List JVal → List JVal → Bool
  | [], [] => true
  | a :: as, b :: bs => jvalBeq a b && jvalListBeq as bs
  | _, _ => false

/-- Pairwise equality of JSON object bindings. -/
def jvalObjBeq : List (String × JVal) → List (String × JVal) → Bool
  | [], [] => true
  | (k1, v1) :: as, (k2, v2) :: bs => k1 == k2 && jvalBeq v1 v2 && jvalObjBeq as bs
  | _, _ => false

end

/-- Equality of optional JSON values (used to compare `d.get(k)` results). -/
def ojBeq : Option JVal → Option JVal → Bool
  | none, none => true
  | some a, some b => jvalBeq a b
  | _, _ => false

/-- Python truthiness of a JSON value: `None`, `False`, `0`, `""`, `[]`
and an empty object are falsy, everything else truthy. -/
def jTruthy : JVal → Bool
  | .null => false
  | .bool b => b
  | .int n => n != 0
  | .str s => !s.isEmpty
  | .arr l => !l.isEmpty
  | .obj l => !l.isEmpty

/-- Dictionary lookup (`d.get(k)`): value of the first binding of key `k`. -/
def dlookup (k : String) : Dict → Option JVal
  | [] => none
  | (k1, v) :: r => if k1 = k then some v else dlookup k r

/-- The keys of a dictionary are distinct (always true of a Python dict). -/
def nodupKeys (d : Dict) : Prop := (d.map Prod.fst).Nodup

instance (d : Dict) : Decidable (nodupKeys d) := by
  unfold nodupKeys; infer_instance

/-- Python dictionary equality `d1 == d2`: the two dictionaries bind the
same keys to equal values, irrespective of insertion order. -/
def dictEqb (d1 d2 : Dict) : Bool :=
  d1.all (fun kv => ojBeq (dlookup kv.1 d2) (some kv.2)) &&
  d2.all (fun kv => ojBeq (dlookup kv.1 d1) (some kv.2))

/-- The four entry playlist metadata keys scanned by `entries_to_playlist`
(the `keys` set in the source). -/
def playlistKeys : List String :=
  ["playlist_id", "playlist_title", "playlist_uploader", "playlist_uploader_id"]

/-- Python string slice `k[9:]` (code-point indexing), used to chop the
`playlist_` namespace prefix from entry keys. -/
def chop9 (k : String) : String := ⟨k.data.drop 9⟩

/-- The dict comprehension
`{k: v for k, v in entry.items() if v and k in keys}` from
`entries_to_playlist`: the truthy playlist metadata bindings of one entry. -/
def entryPlaylistOf (e : Dict) : Dict :=
  e.filter (fun kv => jTruthy kv.2 && playlistKeys.contains kv.1)

/-- The scanning loop of `entries_to_playlist`: starting from the current
candidate metadata `acc` (`entries_playlist` in the source, `none` at first),
fold over the remaining entries.  An entry with truthy playlist metadata
either initialises the candidate, or must equal it; on the first mismatch
the candidate becomes `None` and the loop breaks. -/
def entriesPlaylistLoop : Option Dict → List Dict → Option Dict
  | acc, [] => acc
  | acc, e :: rest =>
    let ep := entryPlaylistOf e
    if ep.isEmpty then entriesPlaylistLoop acc rest
    else
      match acc with
      | none => entriesPlaylistLoop (some ep) rest
      | some d => if dictEqb ep d then entriesPlaylistLoop (some d) rest else none

/-- `entries_to_playlist(entries)`: combine youtube-dl entries into a
playlist dictionary with the common metadata (prefix chopped), a `_type`
marker and the entries themselves. -/
def entries_to_playlist (entries : List Dict) : Dict :=
  let entries_playlist := entriesPlaylistLoop none entries
  let playlist : Dict :=
    match entries_playlist with
    | some d => if d.isEmpty then [] else d.map (fun kv => (chop9 kv.1, kv.2))
    | none => []
  playlist ++ [("_type", JVal.str "playlist"), ("entries", JVal.arr (entries.map JVal.obj))]

/-- Classification marker: `isinstance(info.get('entries'), list)`. -/
def isArrB : Option JVal → Bool
  | some (.arr _) => true
  | _ => false

/-- The list carried by an optional JSON value (empty when not a list). -/
def asArr : Option JVal → List JVal
  | some (.arr l) => l
  | _ => []

/-- Whether a JSON value is an object (a Python dict). -/
def isObjB : JVal → Bool
  | .obj _ => true
  | _ => false

/-- The bindings of a JSON object value (empty when not an object). -/
def asObjD : JVal → Dict
  | .obj d => d
  | _ => []

/-- Python truthiness of `info.get('entries')` style whole-dictionary
values is not needed; this is truthiness of an optional dict
(`if info_count == 1 and last_playlist:`). -/
def odictTruthy : Option Dict → Bool
  | none => false
  | some d => !d.isEmpty

/-- The ways `_load_info` can fail.  `unrecognized path` models
`ValueError('Unrecognized JSON in ' + info_path)`; `entryTypeError path`
models the `TypeError` Python raises at
`entry[_JSON_PATH_KEY] = info_path` when a playlist document carries a
non-object (for example `null`) element in its `entries` list. -/
inductive LoadError where
  | unrecognized : String → LoadError
  | entryTypeError : String → LoadError
  deriving DecidableEq

/-- The loop body of `_load_info` over the (already parsed) input
documents, each paired with its location.  `entries` is the accumulated
flat entry list, `info_count` the number of documents seen and
`last_playlist` the most recent collection document.  The internal
`_JSON_PATH_KEY` tag (a non-string sentinel key used only by the URL
resolver, which no claim touches) is modelled only by its failure mode:
tagging a non-object entry raises, which is `entryTypeError`. -/
def loadInfoLoop :
    List (String × Dict) → List Dict → Nat → Option Dict → Except LoadError Dict
  | [], entries, info_count, last_playlist =>
    if info_count == 1 && odictTruthy last_playlist then
      .ok (last_playlist.getD [])
    else
      .ok (entries_to_playlist entries)
  | (info_path, info) :: rest, entries, info_count, last_playlist =>
    let info_entries := dlookup "entries" info
    let has_entries := isArrB info_entries
    let has_formats := isArrB (dlookup "formats" info)
    if has_entries == has_formats then
      .error (.unrecognized info_path)
    else if has_formats then
      loadInfoLoop rest (entries ++ [info]) (info_count + 1) last_playlist
    else if (asArr info_entries).all isObjB then
      loadInfoLoop rest (entries ++ (asArr info_entries).map asObjD)
        (info_count + 1) (some info)
    else
      .error (.entryTypeError info_path)

/-- `_load_info(info_paths)`: load the parsed info documents into a single
playlist dictionary.  Reading and JSON parsing of the named files is
outside this model; the input is the ordered list of already parsed
documents with their locations. -/
def load_info (infos : List (String × Dict)) : Except LoadError Dict :=
  loadInfoLoop infos [] 0 none

/-- A document passes one iteration of `_load_info` without raising: its
two shape markers are mutually exclusive and, for a collection document,
all of its entries are objects (so the path tagging loop succeeds). -/
def docOkB (info : Dict) : Bool :=
  let has_entries := isArrB (dlookup "entries" info)
  let has_formats := isArrB (dlookup "formats" info)
  has_entries != has_formats &&
    (has_formats || (asArr (dlookup "entries" info)).all isObjB)

/-- Python truthiness of an optional string (absent and `''` are falsy). -/
def ostrTruthy : Option String → Bool
  | none => false
  | some s => !s.isEmpty

/-- Codec normalisation in `get_entry_media_type`: the literal sentinel
`'none'` is treated as absent. -/
def normCodec (c : Option String) : Option String :=
  if c == some "none" then none else c

/-- The extensions special-cased by the `get_entry_media_type` chain. -/
def specialExts : List String :=
  ["3g2", "3gp", "avi", "f4a", "f4b", "f4p", "m4a", "m4b", "m4p", "m4r",
   "f4v", "m4v", "flv", "gif", "mk3d", "mks", "mkv", "mka", "mp3", "ogg",
   "opus", "ogv", "wav"]

/-- The extension dispatch chain of `get_entry_media_type`, after codec
normalisation.  Returns the possibly rewritten extension, the possibly
defaulted audio codec, and the media type before the codecs parameter
(`ext`, `acodec` and `media_type` at line 153 of the source). -/
def mediaTypeBase (ext : String) (acodec vcodec : Option String) :
    String × Option String × String :=
  let media_type := if ostrTruthy acodec && !ostrTruthy vcodec then "audio/" else "video/"
  if ext == "3g2" then (ext, acodec, media_type ++ "3gpp2")
  else if ext == "3gp" then (ext, acodec, media_type ++ "3gpp")
  else if ext == "avi" then (ext, acodec, "video/vnd.avi")
  else if ["f4a", "f4b", "f4p", "m4a", "m4b", "m4p", "m4r"].contains ext then
    (ext, acodec,
      if !ostrTruthy acodec && !ostrTruthy vcodec then "audio/mp4" else media_type ++ "mp4")
  else if ["f4v", "m4v"].contains ext then (ext, acodec, media_type ++ "mp4")
  else if ext == "flv" then (ext, acodec, "video/x-flv")
  else if ext == "gif" then (ext, acodec, "image/gif")
  else if ["mk3d", "mks", "mkv"].contains ext then (ext, acodec, media_type ++ "x-matroska")
  else if ext == "mka" then
    (ext, acodec,
      (if !ostrTruthy acodec && !ostrTruthy vcodec then "audio/" else media_type) ++ "x-matroska")
  else if ext == "mp3" then (ext, acodec, "audio/mpeg")
  else if ext == "ogg" then
    (ext, acodec, (if !ostrTruthy vcodec then "audio/" else media_type) ++ "ogg")
  else if ext == "opus" then
    ("ogg", (if acodec == none then some "opus" else acodec), "audio/ogg")
  else if ext == "ogv" then (ext, acodec, media_type ++ "ogg")
  else if ext == "wav" then (ext, acodec, "audio/vnd.wave")
  else (ext, acodec, media_type ++ ext)

/-- The RFC 6381 codecs parameter appended by `get_entry_media_type`
(empty when suppressed or when no codec is known). -/
def codecsParam (ext : String) (acodec vcodec : Option String) : String :=
  if (ostrTruthy acodec || ostrTruthy vcodec) && !(["flv", "gif", "mp3"].contains ext) then
    "; codecs=" ++
      (if ostrTruthy acodec && ostrTruthy vcodec then
        "\"" ++ vcodec.getD "" ++ ", " ++ acodec.getD "" ++ "\""
      else (if ostrTruthy acodec then acodec else vcodec).getD "")
  else ""

/-- `get_entry_media_type(entry)` on an entry with extension `ext` and
optional codec strings: infer the MIME type. -/
def get_entry_media_type (ext : String) (acodec0 vcodec0 : Option String) : String :=
  let acodec := normCodec acodec0
  let vcodec := normCodec vcodec0
  match mediaTypeBase ext acodec vcodec with
  | (ext1, acodec1, media_type) => media_type ++ codecsParam ext1 acodec1 vcodec

/-- ASCII digit test on the code point (regex `\d` over the date string). -/
def isDig (c : Char) : Bool := 48 ≤ c.toNat && c.toNat ≤ 57

/-- Numeric value of an ASCII digit character. -/
def digitVal (c : Char) : Nat := c.toNat - 48

/-- Numeric value of a digit string, most significant first. -/
def natOfDigits (cs : List Char) : Nat := cs.foldl (fun a c => 10 * a + digitVal c) 0

/-- The month token of Python `time.strptime` for `%m`: the regex
`1[0-2]|0[1-9]|[1-9]` (one or two digits, month 1 to 12), applied to an
exact character list. -/
def monthTokVal : List Char → Option Nat
  | [a] => if 49 ≤ a.toNat && a.toNat ≤ 57 then some (digitVal a) else none
  | [a, b] =>
    if a.toNat == 49 && (48 ≤ b.toNat && b.toNat ≤ 50) then some (10 + digitVal b)
    else if a.toNat == 48 && (49 ≤ b.toNat && b.toNat ≤ 57) then some (digitVal b)
    else none
  | _ => none

/-- The day token of Python `time.strptime` for `%d`: the regex
`3[01]|[12]\d|0[1-9]|[1-9]` (one or two digits, day 1 to 31), applied to
an exact character list. -/
def dayTokVal : List Char → Option Nat
  | [a] => if 49 ≤ a.toNat && a.toNat ≤ 57 then some (digitVal a) else none
  | [a, b] =>
    if a.toNat == 51 && (48 ≤ b.toNat && b.toNat ≤ 49) then some (30 + digitVal b)
    else if (a.toNat == 49 || a.toNat == 50) && (48 ≤ b.toNat && b.toNat ≤ 57) then
      some (10 * digitVal a + digitVal b)
    else if a.toNat == 48 && (49 ≤ b.toNat && b.toNat ≤ 57) then some (digitVal b)
    else none
  | _ => none

/-- The regex phase of `time.strptime(datestr, '%Y%m%d')`: the year is
exactly four digits (`\d\d\d\d`), then a month and a day token must
consume the rest of the string exactly (Python raises on leftover
characters).  Alternation preference of the regex engine: a two
character month or day token is tried before a one character one. -/
def parseYmdTokens (s : String) : Option (Nat × Nat × Nat) :=
  let cs := s.data
  let y4 := cs.take 4
  if y4.length == 4 && y4.all isDig then
    let y := natOfDigits y4
    match cs.drop 4 with
    | [m1, d1] =>
      match monthTokVal [m1], dayTokVal [d1] with
      | some m, some d => some (y, m, d)
      | _, _ => none
    | [a, b, c] =>
      match monthTokVal [a, b], dayTokVal [c] with
      | some m, some d => some (y, m, d)
      | _, _ =>
        match monthTokVal [a], dayTokVal [b, c] with
        | some m, some d => some (y, m, d)
        | _, _ => none
    | [a, b, c, d] =>
      match monthTokVal [a, b], dayTokVal [c, d] with
      | some m, some dd => some (y, m, dd)
      | _, _ => none
    | _ => none
  else none

/-- Proleptic Gregorian leap year test. -/
def isLeapB (y : Nat) : Bool := (y % 4 == 0 && y % 100 != 0) || y % 400 == 0

/-- Length of month `m` (1 to 12). -/
def monthLen (leap : Bool) (m : Nat) : Nat :=
  if m == 2 then (if leap then 29 else 28)
  else if [4, 6, 9, 11].contains m then 30 else 31

/-- `time.strptime(datestr, '%Y%m%d')`: the regex phase, followed by the
calendar validation that `_strptime` performs by constructing
`datetime.date(year, month, day)` (year 1 to 9999, day within the
month).  The month and day tokens already guarantee a month 1 to 12 and
a day 1 to 31, and four year digits guarantee a year at most 9999. -/
def parseYmd (s : String) : Option (Nat × Nat × Nat) :=
  match parseYmdTokens s with
  | some (y, m, d) =>
    if 1 ≤ y ∧ d ≤ monthLen (isLeapB y) m then some (y, m, d) else none
  | none => none

/-- Declarative form of the lenient date pattern actually accepted by the
parsing step of the date normalizer: four digits of year, then some split
of the remainder into a month token and a day token consuming everything,
the whole forming a real calendar date of year at least 1. -/
def ymdLenient (s : String) : Bool :=
  let cs := s.data
  (cs.take 4).length == 4 && (cs.take 4).all isDig &&
  (let y := natOfDigits (cs.take 4)
   [1, 2].any fun k =>
    match monthTokVal ((cs.drop 4).take k), dayTokVal ((cs.drop 4).drop k) with
    | some m, some d => decide (1 ≤ y ∧ d ≤ monthLen (isLeapB y) m)
    | _, _ => false)

/-- The notion of well-formed input stated by the spec for the date
normalizer, written from the spec for comparison with the code: exactly
8 digits forming a valid `YYYYMMDD` calendar date. -/
def specValidYMD (s : String) : Bool :=
  let cs := s.data
  cs.length == 8 && cs.all isDig &&
  (let y := natOfDigits (cs.take 4)
   let m := natOfDigits ((cs.drop 4).take 2)
   let d := natOfDigits (cs.drop 6)
   1 ≤ y && 1 ≤ m && m ≤ 12 && 1 ≤ d && d ≤ monthLen (isLeapB y) m)

/-- Number of leap years in `[0, y)` (year 0 of the proleptic Gregorian
calendar is a leap year). -/
def leapsUpTo (y : Nat) : Nat := (y + 3) / 4 - (y + 99) / 100 + (y + 399) / 400

/-- Days before the first of month `m` within a year. -/
def monthsBeforeDays (leap : Bool) (m : Nat) : Nat :=
  let base := [0, 31, 59, 90, 120, 151, 181, 212, 243, 273, 304, 334].getD (m - 1) 0
  if 2 < m && leap then base + 1 else base

/-- Day count of `y-m-d` since 0000-01-01; a day of month beyond the end
of the month spills into the following month, exactly as `time.mktime`
normalises out of range fields. -/
def dayNumber (y m d : Nat) : Nat :=
  365 * y + leapsUpTo y + monthsBeforeDays (isLeapB y) m + (d - 1)

/-- Inverse of `dayNumber`: the calendar date of a day count since
0000-01-01 (era based arithmetic, no loops). -/
def civilFromDays (z : Nat) : Nat × Nat × Nat :=
  let u := z + 146037
  let era := u / 146097
  let doe := u % 146097
  let yoe := (doe - doe / 1460 + doe / 36524 - doe / 146096) / 365
  let doy := doe - (365 * yoe + yoe / 4 - yoe / 100)
  let mp := (5 * doy + 2) / 153
  let d := doy - (153 * mp + 2) / 5 + 1
  let m := if mp < 10 then mp + 3 else mp - 9
  let y := era * 400 + yoe + (if m ≤ 2 then 1 else 0) - 400
  (y, m, d)

/-- English weekday abbreviations indexed by `dayNumber mod 7`
(0000-01-01 was a Saturday). -/
def weekName (i : Nat) : String := ["Sat", "Sun", "Mon", "Tue", "Wed", "Thu", "Fri"].getD i "Sat"

/-- English month abbreviations used by `email.utils.formatdate`. -/
def monthName (m : Nat) : String :=
  ["Jan", "Feb", "Mar", "Apr", "May", "Jun",
   "Jul", "Aug", "Sep", "Oct", "Nov", "Dec"].getD (m - 1) "Jan"

/-- Decimal digit character of `n mod 10`. -/
def digitChr (n : Nat) : Char :=
  ['0', '1', '2', '3', '4', '5', '6', '7', '8', '9'].getD (n % 10) '0'

/-- Two digit zero padded decimal rendering. -/
def pad2 (n : Nat) : String := ⟨[digitChr (n / 10), digitChr n]⟩

/-- Four digit zero padded decimal rendering (the years reachable from
the parser are at most 9999, so four digits always suffice). -/
def pad4 (n : Nat) : String :=
  ⟨[digitChr (n / 1000), digitChr (n / 100), digitChr (n / 10), digitChr n]⟩

/-- The RFC 2822 text produced by `formatdate` for midnight of the
normalised date: `Www, DD Mon YYYY 00:00:00 -0000`. -/
def fmtRfc2822 (y m d : Nat) : String :=
  let z := dayNumber y m d
  match civilFromDays z with
  | (y2, m2, d2) =>
    weekName (z % 7) ++ ", " ++ pad2 d2 ++ " " ++ monthName m2 ++ " " ++ pad4 y2
      ++ " 00:00:00 -0000"

/-- `_ymd_to_rfc2822(datestr)`: parse with `strptime` semantics
(`parseYmd`) and render the RFC 2822 date text.  The timestamp
arithmetic of the source (`mktime` plus the UTC offset correction)
exists precisely to make the rendered text the timezone independent
midnight of the parsed date, which is what `fmtRfc2822` computes;
`.error` models the `ValueError` raised on parse failure.  The model
treats the timestamp arithmetic as total: platform specific `mktime`
range limits and the boundary failure of `datetime.fromtimestamp` on
the very first representable day (year 1, January 1) are outside it. -/
def ymd_to_rfc2822 (s : String) : Except Unit String :=
  match parseYmd s with
  | none => .error ()
  | some (y, m, d) => .ok (fmtRfc2822 y m d)

/-- Decimal digits of a natural number, most significant first. -/
def natReprAux (n : Nat) : List Char :=
  if _h : n < 10 then [digitChr n]
  else natReprAux (n / 10) ++ [digitChr n]
termination_by n
decreasing_by exact Nat.div_lt_self (by omega) (by omega)

/-- Python `str` of a natural number. -/
def natRepr (n : Nat) : String := ⟨natReprAux n⟩

/-- Python `str` of an integer. -/
def intRepr (i : Int) : String :=
  if i < 0 then "-" ++ natRepr i.natAbs else natRepr i.natAbs

/-- Expansion of one character under `xml.sax.saxutils.escape` (used for
element text; the five reserved characters minus the quotes). -/
def escChar (c : Char) : String :=
  if c = '&' then "&amp;" else if c = '<' then "&lt;" else if c = '>' then "&gt;" else ⟨[c]⟩

/-- `xml.sax.saxutils.escape(data)`. -/
def escape (s : String) : String := String.join (s.data.map escChar)

/-- Expansion of one character inside a quoted attribute value:
`quoteattr` additionally encodes tab, newline and carriage return. -/
def qaChar (c : Char) : String :=
  if c = '&' then "&amp;" else if c = '<' then "&lt;" else if c = '>' then "&gt;"
  else if c = '\n' then "&#10;" else if c = '\r' then "&#13;" else if c = '\t' then "&#9;"
  else ⟨[c]⟩

/-- `xml.sax.saxutils.quoteattr(data)`: escape, then pick a quote
character not clashing with the content (double quote preferred,
`&quot;` only when both quotes occur). -/
def quoteattr (s : String) : String :=
  let d := String.join (s.data.map qaChar)
  if d.data.contains '"' then
    if d.data.contains (Char.ofNat 39) then
      "\"" ++ String.join (d.data.map (fun c => if c = '"' then "&quot;" else ⟨[c]⟩)) ++ "\""
    else
      String.singleton (Char.ofNat 39) ++ d ++ String.singleton (Char.ofNat 39)
  else "\"" ++ d ++ "\""

/-- A string contains no line break. -/
def noNL (s : String) : Prop := '\n' ∉ s.data

instance (s : String) : Decidable (noNL s) := by
  unfold noNL; infer_instance

/-- Typed view of a single youtube-dl entry as consumed by
`entry_to_rss`: required keys (`id`, `_filename`, `duration` which may be
null, `ext`) and the optional keys it reads.  The `_JSON_PATH_KEY` tag is
`json_path`, always set by the loader. -/
structure EntryRec where
  json_path : String := ""
  id : String := ""
  webpage_url : Option String := none
  title : Option String := none
  upload_date : Option String := none
  filename : String := ""
  filesize : Option Int := none
  thumbnail : Option String := none
  duration : Option Int := none
  age_limit : Option Int := none
  description : Option String := none
  ext : String := ""
  acodec : Option String := none
  vcodec : Option String := none

/-- Typed view of a playlist dictionary as consumed by
`playlist_to_rss`. -/
structure PlaylistRec where
  json_path : Option String := none
  title : Option String := none
  description : Option String := none
  uploader : Option String := none
  webpage_url : Option String := none
  upload_date : Option String := none
  thumbnail : Option String := none
  entries : List EntryRec := []

/-- `_resolve_path(path, src_path, dst_path, dst_base)`.  Its path
arithmetic depends on the working directory (through `os.path.relpath`),
so the serializer model takes the resolver as a parameter; no claim
concerns the resolved value itself. -/
abbrev ResolveP := String → String → String → Option String → String

/-- `_resolve_url(url, src_path, dst_path, dst_base)`, as a parameter for
the same reason; the source path may be absent for a hand-authored
playlist document. -/
abbrev ResolveU := String → Option String → String → Option String → String

/-- Python `max` over the entry upload dates
(`max(entry.get('upload_date') for entry in ... if entry)`): starts from
the first element; every comparison of `None` with anything (including
`None`) raises `TypeError`, and an empty sequence raises `ValueError`
(both modelled as `.error`).  A one element sequence needs no comparison,
so a single `None` is returned as is.  String comparison is code point
lexicographic. -/
def pyMaxGo : Option String → List (Option String) → Except Unit (Option String)
  | m, [] => .ok m
  | m, y :: ys =>
    match m, y with
    | some a, some b => pyMaxGo (if a < b then some b else some a) ys
    | _, _ => .error ()

/-- Python `max` over a sequence of optional strings (see `pyMaxGo`). -/
def pyMaxOptStr : List (Option String) → Except Unit (Option String)
  | [] => .error ()
  | x :: xs => pyMaxGo x xs

/-- Python `max` over a nonempty list of integers. -/
def maxIntList : List Int → Int
  | [] => 0
  | x :: xs => xs.foldl max x

/-- One level of indentation (`''` in compact mode). -/
def indent1Of (indent : Option String) : String := indent.getD ""

/-- Two levels of indentation (`indent * 2`). -/
def indent2Of (indent : Option String) : String :=
  match indent with | none => "" | some s => s ++ s

/-- Three levels of indentation (`indent * 3`). -/
def indent3Of (indent : Option String) : String :=
  match indent with | none => "" | some s => s ++ s ++ s

/-- The end of line written after each element (nothing in compact
mode). -/
def eolOf (indent : Option String) : String :=
  match indent with | none => "" | some _ => "\n"

/-- The `<guid>` write of `entry_to_rss`: a permalink when the webpage
URL is truthy, the bare id otherwise. -/
def entryGuidPart (e : EntryRec) (indent : Option String) : String :=
  if ostrTruthy e.webpage_url then
    indent3Of indent ++ "<guid isPermaLink=\"true\">" ++ escape (e.webpage_url.getD "")
      ++ "</guid>" ++ eolOf indent
  else
    indent3Of indent ++ "<guid>" ++ escape e.id ++ "</guid>" ++ eolOf indent

/-- The `<title>` write of `entry_to_rss`. -/
def entryTitlePart (e : EntryRec) (indent : Option String) : String :=
  match e.title with
  | some t => indent3Of indent ++ "<title>" ++ escape t ++ "</title>" ++ eolOf indent
  | none => ""

/-- The `<pubDate>` write of `entry_to_rss` (fallible: the date is
normalised with `_ymd_to_rfc2822`). -/
def entryPubDatePart (e : EntryRec) (indent : Option String) : Except Unit String :=
  match e.upload_date with
  | some d => do
    pure (indent3Of indent ++ "<pubDate>" ++ (← ymd_to_rfc2822 d) ++ "</pubDate>"
      ++ eolOf indent)
  | none => pure ""

/-- The `<enclosure>` write of `entry_to_rss` (unconditional; the media
type returned by `get_entry_media_type` is never `None`). -/
def entryEnclosurePart (rp : ResolveP) (e : EntryRec) (rssName : String)
    (base : Option String) (indent : Option String) : String :=
  indent3Of indent ++ "<enclosure" ++ " type="
    ++ quoteattr (get_entry_media_type e.ext e.acodec e.vcodec) ++
    (match e.filesize with
     | some fs => " length=" ++ quoteattr (intRepr fs)
     | none => "") ++
    " url=" ++ quoteattr (rp e.filename e.json_path rssName base) ++ "/>" ++ eolOf indent

/-- The `<itunes:image>` write of `entry_to_rss`. -/
def entryThumbPart (ru : ResolveU) (e : EntryRec) (rssName : String)
    (base : Option String) (indent : Option String) : String :=
  match e.thumbnail with
  | some t =>
    indent3Of indent ++ "<itunes:image href="
      ++ quoteattr (ru t (some e.json_path) rssName base) ++ "/>" ++ eolOf indent
  | none => ""

/-- The `<itunes:duration>` write of `entry_to_rss`. -/
def entryDurationPart (e : EntryRec) (indent : Option String) : String :=
  match e.duration with
  | some dur =>
    indent3Of indent ++ "<itunes:duration>" ++ intRepr dur ++ "</itunes:duration>"
      ++ eolOf indent
  | none => ""

/-- The `<itunes:explicit>` write of `entry_to_rss`. -/
def entryAgePart (e : EntryRec) (indent : Option String) : String :=
  match e.age_limit with
  | some a =>
    indent3Of indent ++ "<itunes:explicit>" ++ (if 0 < a then "yes" else "clean")
      ++ "</itunes:explicit>" ++ eolOf indent
  | none => ""

/-- The `<description>` write of `entry_to_rss`. -/
def entryDescPart (e : EntryRec) (indent : Option String) : String :=
  match e.description with
  | some dsc =>
    indent3Of indent ++ "<description>" ++ escape dsc ++ "</description>" ++ eolOf indent
  | none => ""

/-- `entry_to_rss(entry, rss, base, indent)`: the text written for one
`<item>` element, in source write order.  The stream is modelled by the
returned string; an exception (`.error`, from the date parser) abandons
the stream. -/
def entry_to_rss (rp : ResolveP) (ru : ResolveU) (e : EntryRec) (rssName : String)
    (base : Option String) (indent : Option String) : Except Unit String := do
  let pubPart ← entryPubDatePart e indent
  pure (indent2Of indent ++ "<item>" ++ eolOf indent
    ++ entryGuidPart e indent ++ entryTitlePart e indent ++ pubPart
    ++ entryEnclosurePart rp e rssName base indent
    ++ entryThumbPart ru e rssName base indent
    ++ entryDurationPart e indent ++ entryAgePart e indent ++ entryDescPart e indent
    ++ indent2Of indent ++ "</item>" ++ eolOf indent)

/-- The fixed `<rss>` root element opener with its namespace
declarations. -/
def rssOpenStr : String :=
  "<rss version=\"2.0\" xmlns:atom=\"http://www.w3.org/2005/Atom\""
    ++ " xmlns:itunes=\"http://www.itunes.com/dtds/podcast-1.0.dtd\">"

/-- Text written by `playlist_to_rss` before the channel metadata. -/
def playlistHead (indent : Option String) : String :=
  rssOpenStr ++ eolOf indent ++ indent1Of indent ++ "<channel>" ++ eolOf indent

/-- The channel title, description, author and link writes of
`playlist_to_rss`, each conditional on presence. -/
def chanMetaPart (p : PlaylistRec) (indent : Option String) : String :=
  let indent2 := indent2Of indent
  let eol := eolOf indent
  (match p.title with
   | some t => indent2 ++ "<title>" ++ escape t ++ "</title>" ++ eol
   | none => "") ++
  (match p.description with
   | some t => indent2 ++ "<description>" ++ escape t ++ "</description>" ++ eol
   | none => "") ++
  (match p.uploader with
   | some t => indent2 ++ "<itunes:author>" ++ escape t ++ "</itunes:author>" ++ eol
   | none => "") ++
  (match p.webpage_url with
   | some t => indent2 ++ "<link>" ++ escape t ++ "</link>" ++ eol
   | none => "")

/-- The channel `<pubDate>` write of `playlist_to_rss`: the explicit
playlist `upload_date` if present, otherwise the Python `max` of the
entry upload dates (every modelled entry dictionary is nonempty, hence
truthy, so the `if entry` filter of the source keeps all of them); the
element is omitted when the computed date is `None`. -/
def chanPubDatePart (p : PlaylistRec) (indent : Option String) : Except Unit String := do
  let indent2 := indent2Of indent
  let eol := eolOf indent
  let upload_date ←
    match p.upload_date with
    | some d => pure (some d)
    | none => pyMaxOptStr (p.entries.map (fun e => e.upload_date))
  match upload_date with
  | some d => do
    pure (indent2 ++ "<pubDate>" ++ (← ymd_to_rfc2822 d) ++ "</pubDate>" ++ eol)
  | none => pure ""

/-- The channel image block of `playlist_to_rss` (generic `<image>` plus
`<itunes:image>`), present only with a thumbnail. -/
def chanThumbPart (ru : ResolveU) (p : PlaylistRec) (rssName : String)
    (base : Option String) (indent : Option String) : String :=
  let indent2 := indent2Of indent
  let indent3 := indent3Of indent
  let eol := eolOf indent
  match p.thumbnail with
  | some t0 =>
    let t := ru t0 p.json_path rssName base
    indent2 ++ "<image>" ++ eol ++
    indent3 ++ "<url>" ++ escape t ++ "</url>" ++ eol ++
    (match p.title with
     | some ti => indent3 ++ "<title>" ++ escape ti ++ "</title>" ++ eol
     | none => "") ++
    (match p.webpage_url with
     | some w => indent3 ++ "<link>" ++ escape w ++ "</link>" ++ eol
     | none => "") ++
    indent2 ++ "</image>" ++ eol ++
    indent2 ++ "<itunes:image href=" ++ quoteattr t ++ "/>" ++ eol
  | none => ""

/-- The channel `<itunes:explicit>` write: only when every entry declares
an age limit, from the maximum age limit. -/
def chanExplicitPart (p : PlaylistRec) (indent : Option String) : String :=
  let indent2 := indent2Of indent
  let eol := eolOf indent
  let age_limits := p.entries.map (fun e => e.age_limit)
  if !age_limits.isEmpty && age_limits.all Option.isSome then
    indent2 ++ "<itunes:explicit>"
      ++ (if 0 < maxIntList (age_limits.map (fun a => a.getD 0)) then "yes" else "clean")
      ++ "</itunes:explicit>" ++ eol
  else ""

/-- The `<atom:link rel="self">` write, only for a truthy base URL. -/
def chanSelfLinkPart (base : Option String) (indent : Option String) : String :=
  let indent2 := indent2Of indent
  let eol := eolOf indent
  match base with
  | some b =>
    if !b.isEmpty then
      indent2 ++ "<atom:link rel=\"self\" type=\"application/rss+xml\" href="
        ++ quoteattr b ++ "/>" ++ eol
    else ""
  | none => ""

/-- The `<generator>` write (`os.path.basename(__file__)` plus the
version constant). -/
def generatorPart (indent : Option String) : String :=
  let indent2 := indent2Of indent
  let eol := eolOf indent
  indent2 ++ "<generator>" ++ escape "ytdl2rss.py 0.1.0" ++ "</generator>" ++ eol

/-- The item loop of `playlist_to_rss`
(`for entry in playlist['entries']: entry_to_rss(...)`), writing each
item in order; the first exception aborts the run. -/
def itemsLoop (rp : ResolveP) (ru : ResolveU) (entries : List EntryRec) (rssName : String)
    (base : Option String) (indent : Option String) : Except Unit String :=
  match entries with
  | [] => pure ""
  | e :: rest => do
    let s ← entry_to_rss rp ru e rssName base indent
    let r ← itemsLoop rp ru rest rssName base indent
    pure (s ++ r)

/-- `playlist_to_rss(playlist, rss, base, indent)`: the complete document
text from the root element opener through the final `</rss>` and line
break, in source write order.  An exception (`.error`, from the date
parsing or the `max` over upload dates) abandons the stream; partial
output written before a mid-stream failure is not modelled. -/
def playlist_to_rss (rp : ResolveP) (ru : ResolveU) (p : PlaylistRec) (rssName : String)
    (base : Option String) (indent : Option String) : Except Unit String := do
  let pub ← chanPubDatePart p indent
  let items ← itemsLoop rp ru p.entries rssName base indent
  pure (playlistHead indent ++ chanMetaPart p indent ++ pub
    ++ chanThumbPart ru p rssName base indent
    ++ chanExplicitPart p indent
    ++ chanSelfLinkPart base indent
    ++ generatorPart indent
    ++ items
    ++ indent1Of indent ++ "</channel>" ++ eolOf indent
    ++ "</rss>\n")

mutual

/-- `jvalBeq` implies equality. -/
theorem eq_of_jvalBeq : ∀ a b : JVal, jvalBeq a b = true → a = b
  | .null, .null, _ => rfl
  | .bool _, .bool _, h => congrArg JVal.bool (by simpa [jvalBeq] using h)
  | .int _, .int _, h => congrArg JVal.int (by simpa [jvalBeq] using h)
  | .str _, .str _, h => congrArg JVal.str (by simpa [jvalBeq] using h)
  | .arr a, .arr b, h => congrArg JVal.arr (eq_of_jvalListBeq a b h)
  | .obj a, .obj b, h => congrArg JVal.obj (eq_of_jvalObjBeq a b h)
  | .null, .bool _, h => Bool.noConfusion h
  | .null, .int _, h => Bool.noConfusion h
  | .null, .str _, h => Bool.noConfusion h
  | .null, .arr _, h => Bool.noConfusion h
  | .null, .obj _, h => Bool.noConfusion h
  | .bool _, .null, h => Bool.noConfusion h
  | .bool _, .int _, h => Bool.noConfusion h
  | .bool _, .str _, h => Bool.noConfusion h
  | .bool _, .arr _, h => Bool.noConfusion h
  | .bool _, .obj _, h => Bool.noConfusion h
  | .int _, .null, h => Bool.noConfusion h
  | .int _, .bool _, h => Bool.noConfusion h
  | .int _, .str _, h => Bool.noConfusion h
  | .int _, .arr _, h => Bool.noConfusion h
  | .int _, .obj _, h => Bool.noConfusion h
  | .str _, .null, h => Bool.noConfusion h
  | .str _, .bool _, h => Bool.noConfusion h
  | .str _, .int _, h => Bool.noConfusion h
  | .str _, .arr _, h => Bool.noConfusion h
  | .str _, .obj _, h => Bool.noConfusion h
  | .arr _, .null, h => Bool.noConfusion h
  | .arr _, .bool _, h => Bool.noConfusion h
  | .arr _, .int _, h => Bool.noConfusion h
  | .arr _, .str _, h => Bool.noConfusion h
  | .arr _, .obj _, h => Bool.noConfusion h
  | .obj _, .null, h => Bool.noConfusion h
  | .obj _, .bool _, h => Bool.noConfusion h
  | .obj _, .int _, h => Bool.noConfusion h
  | .obj _, .str _, h => Bool.noConfusion h
  | .obj _, .arr _, h => Bool.noConfusion h

/-- `jvalListBeq` implies equality. -/
theorem eq_of_jvalListBeq : ∀ as bs : List JVal, jvalListBeq as bs = true → as = bs
  | [], [], _ => rfl
  | [], _ :: _, h => Bool.noConfusion h
  | _ :: _, [], h => Bool.noConfusion h
  | a :: as, b :: bs, h => by
    simp only [jvalListBeq, Bool.and_eq_true] at h
    rw [eq_of_jvalBeq a b h.1, eq_of_jvalListBeq as bs h.2]

/-- `jvalObjBeq` implies equality. -/
theorem eq_of_jvalObjBeq :
    ∀ as bs : List (String × JVal), jvalObjBeq as bs = true → as = bs
  | [], [], _ => rfl
  | [], _ :: _, h => Bool.noConfusion h
  | _ :: _, [], h => Bool.noConfusion h
  | (k1, v1) :: as, (k2, v2) :: bs, h => by
    simp only [jvalObjBeq, Bool.and_eq_true, beq_iff_eq] at h
    rw [h.1.1, eq_of_jvalBeq v1 v2 h.1.2, eq_of_jvalObjBeq as bs h.2]

end

mutual

/-- `jvalBeq` is reflexive. -/
theorem jvalBeq_refl : ∀ a : JVal, jvalBeq a a = true
  | .null => rfl
  | .bool _ => by simp [jvalBeq]
  | .int _ => by simp [jvalBeq]
  | .str _ => by simp [jvalBeq]
  | .arr a => jvalListBeq_refl a
  | .obj a => jvalObjBeq_refl a

/-- `jvalListBeq` is reflexive. -/
theorem jvalListBeq_refl : ∀ as : List JVal, jvalListBeq as as = true
  | [] => rfl
  | a :: as => by simp [jvalListBeq, jvalBeq_refl a, jvalListBeq_refl as]

/-- `jvalObjBeq` is reflexive. -/
theorem jvalObjBeq_refl : ∀ as : List (String × JVal), jvalObjBeq as as = true
  | [] => rfl
  | (k, v) :: as => by simp [jvalObjBeq, jvalBeq_refl v, jvalObjBeq_refl as]

end

/-- `ojBeq` implies equality. -/
theorem eq_of_ojBeq : ∀ a b : Option JVal, ojBeq a b = true → a = b
  | none, none, _ => rfl
  | none, some _, h => Bool.noConfusion h
  | some _, none, h => Bool.noConfusion h
  | some a, some b, h => congrArg some (eq_of_jvalBeq a b h)

/-- `ojBeq` is reflexive. -/
theorem ojBeq_refl : ∀ a : Option JVal, ojBeq a a = true
  | none => rfl
  | some x => jvalBeq_refl x

/-- A successful lookup is a member of the dictionary. -/
theorem dlookup_mem {k : String} {v : JVal} :
    ∀ {d : Dict}, dlookup k d = some v → (k, v) ∈ d
  | [], h => by simp [dlookup] at h
  | (k1, w) :: r, h => by
    by_cases hk : k1 = k
    · subst hk
      simp only [dlookup, if_true, eq_self_iff_true, Option.some.injEq] at h
      subst h
      exact List.mem_cons_self _ _
    · simp only [dlookup, if_neg hk] at h
      exact List.mem_cons_of_mem _ (dlookup_mem h)

/-- A dictionary with a successful lookup is nonempty. -/
theorem ne_nil_of_dlookup {k : String} {v : JVal} {d : Dict}
    (h : dlookup k d = some v) : d ≠ [] := by
  intro he
  subst he
  simp [dlookup] at h

/-- Python dictionary equality makes every lookup agree. -/
theorem dictEqb_lookup {d1 d2 : Dict} (h : dictEqb d1 d2 = true) (k : String) :
    dlookup k d1 = dlookup k d2 := by
  have h1 := (Bool.and_eq_true _ _).mp h
  have ha := List.all_eq_true.mp h1.1
  have hb := List.all_eq_true.mp h1.2
  cases hc : dlookup k d1 with
  | some v =>
    have := eq_of_ojBeq _ _ (ha (k, v) (dlookup_mem hc))
    exact this.symm
  | none =>
    cases hd : dlookup k d2 with
    | some w =>
      have := eq_of_ojBeq _ _ (hb (k, w) (dlookup_mem hd))
      rw [hc] at this
      exact this
    | none => rfl

/-- Lookup distributes over dictionary concatenation. -/
theorem dlookup_append (k : String) :
    ∀ a b : Dict, dlookup k (a ++ b) =
      (match dlookup k a with
       | some v => some v
       | none => dlookup k b)
  | [], _ => rfl
  | (k1, v) :: r, b => by
    by_cases hk : k1 = k
    · simp [dlookup, if_pos hk]
    · simp only [List.cons_append, dlookup, if_neg hk]
      exact dlookup_append k r b

/-- A key bound by no member is not found. -/
theorem dlookup_eq_none {k : String} :
    ∀ {d : Dict}, (∀ kv ∈ d, kv.1 ≠ k) → dlookup k d = none
  | [], _ => rfl
  | (k1, v) :: r, h => by
    have hk : k1 ≠ k := h (k1, v) (List.mem_cons_self _ _)
    simp only [dlookup, if_neg hk]
    exact dlookup_eq_none (fun kv hm => h kv (List.mem_cons_of_mem _ hm))

/-- A passing first binding survives filtering. -/
theorem dlookup_filter_of_pass {k : String} {v : JVal} {q : String × JVal → Bool} :
    ∀ {d : Dict}, dlookup k d = some v → q (k, v) = true →
      dlookup k (d.filter q) = some v
  | [], h, _ => by simp [dlookup] at h
  | (k1, w) :: r, h, hq => by
    by_cases hk : k1 = k
    · subst hk
      simp only [dlookup, if_true, eq_self_iff_true, Option.some.injEq] at h
      subst h
      simp [List.filter, hq, dlookup]
    · simp only [dlookup, if_neg hk] at h
      cases hq1 : q (k1, w) with
      | true => simp [List.filter, hq1, dlookup, if_neg hk, dlookup_filter_of_pass h hq]
      | false => simp [List.filter, hq1, dlookup_filter_of_pass h hq]

/-- Once the candidate metadata is fixed, the loop can only confirm it:
a successful scan returns the same candidate and every later entry with
truthy playlist metadata was equal to it. -/
theorem mergeLoop_some_const :
    ∀ (l : List Dict) (d0 d : Dict),
      entriesPlaylistLoop (some d0) l = some d →
      d = d0 ∧ ∀ e ∈ l, (entryPlaylistOf e).isEmpty = false →
        dictEqb (entryPlaylistOf e) d0 = true
  | [], _, _, h => by
    refine ⟨(Option.some.inj h).symm, ?_⟩
    intro e he
    exact absurd he (List.not_mem_nil e)
  | e :: r, d0, d, h => by
    simp only [entriesPlaylistLoop] at h
    cases hep : (entryPlaylistOf e).isEmpty with
    | true =>
      rw [hep] at h
      simp only [if_true] at h
      obtain ⟨h1, h2⟩ := mergeLoop_some_const r d0 d h
      refine ⟨h1, ?_⟩
      intro e1 he1 hne
      rcases List.mem_cons.mp he1 with he1 | he1
      · subst he1; rw [hep] at hne; exact Bool.noConfusion hne
      · exact h2 e1 he1 hne
    | false =>
      rw [hep] at h
      simp only [Bool.false_eq_true, if_false] at h
      cases hde : dictEqb (entryPlaylistOf e) d0 with
      | false => rw [hde] at h; simp at h
      | true =>
        rw [hde] at h
        simp only [if_true] at h
        obtain ⟨h1, h2⟩ := mergeLoop_some_const r d0 d h
        refine ⟨h1, ?_⟩
        intro e1 he1 hne
        rcases List.mem_cons.mp he1 with he1 | he1
        · subst he1; exact hde
        · exact h2 e1 he1 hne

/-- If every remaining entry with truthy playlist metadata agrees with
the candidate, the scan returns the candidate. -/
theorem mergeLoop_some_of_agree :
    ∀ (l : List Dict) (d0 : Dict),
      (∀ e ∈ l, (entryPlaylistOf e).isEmpty = false →
        dictEqb (entryPlaylistOf e) d0 = true) →
      entriesPlaylistLoop (some d0) l = some d0
  | [], _, _ => rfl
  | e :: r, d0, h => by
    simp only [entriesPlaylistLoop]
    cases hep : (entryPlaylistOf e).isEmpty with
    | true =>
      simp only [if_true]
      exact mergeLoop_some_of_agree r d0
        (fun e1 he1 => h e1 (List.mem_cons_of_mem _ he1))
    | false =>
      simp only [Bool.false_eq_true, if_false,
        h e (List.mem_cons_self _ _) hep, if_true]
      exact mergeLoop_some_of_agree r d0
        (fun e1 he1 => h e1 (List.mem_cons_of_mem _ he1))

/-- A successful scan from the empty candidate returns the metadata of
some entry, and every entry with truthy playlist metadata looks up
equal to the result. -/
theorem mergeLoop_none_char :
    ∀ (l : List Dict) (d : Dict),
      entriesPlaylistLoop none l = some d →
      (∃ e ∈ l, (entryPlaylistOf e).isEmpty = false ∧ d = entryPlaylistOf e) ∧
      (∀ e ∈ l, (entryPlaylistOf e).isEmpty = false →
        ∀ k, dlookup k (entryPlaylistOf e) = dlookup k d)
  | [], d, h => by simp [entriesPlaylistLoop] at h
  | e :: r, d, h => by
    simp only [entriesPlaylistLoop] at h
    cases hep : (entryPlaylistOf e).isEmpty with
    | true =>
      rw [hep] at h
      simp only [if_true] at h
      obtain ⟨⟨e0, he0, hne0, hd0⟩, h2⟩ := mergeLoop_none_char r d h
      refine ⟨⟨e0, List.mem_cons_of_mem _ he0, hne0, hd0⟩, ?_⟩
      intro e1 he1 hne
      rcases List.mem_cons.mp he1 with he1 | he1
      · subst he1; rw [hep] at hne; exact Bool.noConfusion hne
      · exact h2 e1 he1 hne
    | false =>
      rw [hep] at h
      simp only [Bool.false_eq_true, if_false] at h
      obtain ⟨h1, h2⟩ := mergeLoop_some_const r (entryPlaylistOf e) d h
      subst h1
      refine ⟨⟨e, List.mem_cons_self _ _, hep, rfl⟩, ?_⟩
      intro e1 he1 hne
      rcases List.mem_cons.mp he1 with he1 | he1
      · subst he1; intro k; rfl
      · exact fun k => dictEqb_lookup (h2 e1 he1 hne) k

/-- Under pairwise agreement of the truthy playlist metadata, the scan
succeeds with a nonempty dictionary whose lookups match the metadata of
any agreeing entry. -/
theorem mergeLoop_agree_some :
    ∀ l : List Dict,
      (∀ e1 ∈ l, ∀ e2 ∈ l,
        (entryPlaylistOf e1).isEmpty = false → (entryPlaylistOf e2).isEmpty = false →
        dictEqb (entryPlaylistOf e1) (entryPlaylistOf e2) = true) →
      ∀ e ∈ l, (entryPlaylistOf e).isEmpty = false →
      ∃ d : Dict, entriesPlaylistLoop none l = some d ∧ d.isEmpty = false ∧
        ∀ k, dlookup k d = dlookup k (entryPlaylistOf e)
  | [], _, e, he, _ => absurd he (List.not_mem_nil e)
  | x :: r, hagree, e, he, hne => by
    simp only [entriesPlaylistLoop]
    cases hx : (entryPlaylistOf x).isEmpty with
    | true =>
      simp only [if_true]
      have hemem : e ∈ r := by
        rcases List.mem_cons.mp he with he | he
        · subst he; rw [hx] at hne; exact Bool.noConfusion hne
        · exact he
      exact mergeLoop_agree_some r
        (fun e1 he1 e2 he2 => hagree e1 (List.mem_cons_of_mem _ he1)
          e2 (List.mem_cons_of_mem _ he2)) e hemem hne
    | false =>
      simp only [Bool.false_eq_true, if_false]
      have hloop : entriesPlaylistLoop (some (entryPlaylistOf x)) r
          = some (entryPlaylistOf x) :=
        mergeLoop_some_of_agree r (entryPlaylistOf x)
          (fun e1 he1 hne1 => hagree e1 (List.mem_cons_of_mem _ he1)
            x (List.mem_cons_self _ _) hne1 hx)
      refine ⟨entryPlaylistOf x, hloop, hx, ?_⟩
      rcases List.mem_cons.mp he with he | he
      · subst he; intro k; rfl
      · exact fun k =>
          (dictEqb_lookup (hagree x (List.mem_cons_self _ _)
            e (List.mem_cons_of_mem _ he) hx hne) k)

/-- Chopping the `playlist_` prefix never yields the reserved keys. -/
theorem chop9_ne_special : ∀ k ∈ playlistKeys, chop9 k ≠ "_type" ∧ chop9 k ≠ "entries" := by
  decide

/-- Chopping the `playlist_` prefix is injective on the metadata keys. -/
theorem chop9_inj :
    ∀ a ∈ playlistKeys, ∀ b ∈ playlistKeys, chop9 a = chop9 b → a = b := by
  decide

/-- A nonempty list is not `isEmpty`. -/
theorem isEmpty_false_of_ne_nil {α : Type} {l : List α} (h : l ≠ []) :
    l.isEmpty = false := by
  cases l with
  | nil => exact absurd rfl h
  | cons a r => rfl

/-- Every binding of a successful scan result uses a playlist metadata
key. -/
theorem mergeLoop_keys {l : List Dict} {d : Dict}
    (h : entriesPlaylistLoop none l = some d) :
    ∀ kv ∈ d, kv.1 ∈ playlistKeys := by
  obtain ⟨⟨e, _, _, hd⟩, _⟩ := mergeLoop_none_char l d h
  subst hd
  intro kv hkv
  have hq := List.of_mem_filter hkv
  exact List.mem_of_elem_eq_true ((Bool.and_eq_true _ _).mp hq).2

/-- Lookup of a chopped key in the chopped dictionary is lookup of the
original key, provided all keys are playlist metadata keys. -/
theorem dlookup_map_chop {k : String} (hk : k ∈ playlistKeys) :
    ∀ {d : Dict}, (∀ kv ∈ d, kv.1 ∈ playlistKeys) →
      dlookup (chop9 k) (d.map (fun kv => (chop9 kv.1, kv.2))) = dlookup k d
  | [], _ => rfl
  | (k1, v) :: r, h => by
    have hk1 : k1 ∈ playlistKeys := h (k1, v) (List.mem_cons_self _ _)
    by_cases he : k1 = k
    · subst he
      simp [dlookup]
    · have hne : ¬(chop9 k1 = chop9 k) := fun hc => he (chop9_inj k1 hk1 k hk hc)
      simp only [List.map_cons, dlookup, if_neg hne, if_neg he]
      exact dlookup_map_chop hk (fun kv hm => h kv (List.mem_cons_of_mem _ hm))

/-- Lookup of a chopped metadata key in the fixed tail of the playlist
dictionary misses. -/
theorem dlookup_tail_none {k : String} (hk : k ∈ playlistKeys) (x : JVal) :
    dlookup (chop9 k) [("_type", JVal.str "playlist"), ("entries", x)] = none := by
  have h := chop9_ne_special k hk
  have h1 : ¬("_type" = chop9 k) := fun hc => h.1 hc.symm
  have h2 : ¬("entries" = chop9 k) := fun hc => h.2 hc.symm
  simp [dlookup, if_neg h1, if_neg h2]

/-- C9: invariant of the merger.  For every input list of entry records
(including the empty list and lists with disagreeing playlist metadata),
the collection returned by `entries_to_playlist` always has `_type`
equal to `'playlist'` and its `entries` field equal to exactly the input
list, in the same order. -/
theorem entries_to_playlist_shape (entries : List Dict) :
    dlookup "_type" (entries_to_playlist entries) = some (JVal.str "playlist") ∧
    dlookup "entries" (entries_to_playlist entries) = some (JVal.arr (entries.map JVal.obj)) := by
  unfold entries_to_playlist
  cases hl : entriesPlaylistLoop none entries with
  | none => simp [dlookup_append, dlookup]
  | some d =>
    cases hde : d.isEmpty with
    | true => simp [hde, dlookup_append, dlookup]
    | false =>
      have hkeys := mergeLoop_keys hl
      have hmiss1 : dlookup "_type" (d.map fun kv => (chop9 kv.1, kv.2)) = none := by
        apply dlookup_eq_none
        intro kv hkv
        obtain ⟨kv0, hkv0, hmap⟩ := List.mem_map.mp hkv
        rw [← hmap]
        exact (chop9_ne_special kv0.1 (hkeys kv0 hkv0)).1
      have hmiss2 : dlookup "entries" (d.map fun kv => (chop9 kv.1, kv.2)) = none := by
        apply dlookup_eq_none
        intro kv hkv
        obtain ⟨kv0, hkv0, hmap⟩ := List.mem_map.mp hkv
        rw [← hmap]
        exact (chop9_ne_special kv0.1 (hkeys kv0 hkv0)).2
      constructor
      · simp [hde, dlookup_append, hmiss1, dlookup]
      · simp [hde, dlookup_append, hmiss2, dlookup]

/-- C1: for every list of single-item records given to the merger, if
every item that defines any of the four `playlist_*` keys agrees exactly
on the values of those keys (its truthy playlist metadata dictionaries
are Python equal), the synthesized collection binds exactly those values
under the chopped key names; and if two items disagree on one of those
keys (both bind it to truthy but unequal values), the synthesized
collection binds none of the chopped metadata keys. -/
theorem entries_to_playlist_common_meta (entries : List Dict) :
    ((∀ e1 ∈ entries, ∀ e2 ∈ entries,
        (entryPlaylistOf e1).isEmpty = false → (entryPlaylistOf e2).isEmpty = false →
        dictEqb (entryPlaylistOf e1) (entryPlaylistOf e2) = true) →
      ∀ e ∈ entries, (entryPlaylistOf e).isEmpty = false →
      ∀ k ∈ playlistKeys,
        dlookup (chop9 k) (entries_to_playlist entries) = dlookup k (entryPlaylistOf e)) ∧
    (∀ e1 ∈ entries, ∀ e2 ∈ entries, ∀ k ∈ playlistKeys, ∀ v1 v2 : JVal,
      dlookup k e1 = some v1 → jTruthy v1 = true →
      dlookup k e2 = some v2 → jTruthy v2 = true →
      jvalBeq v1 v2 = false →
      ∀ k2 ∈ playlistKeys, dlookup (chop9 k2) (entries_to_playlist entries) = none) := by
  constructor
  · intro hagree e he hne k hk
    obtain ⟨d, hloop, hdne, hlk⟩ := mergeLoop_agree_some entries hagree e he hne
    have hkeys := mergeLoop_keys hloop
    unfold entries_to_playlist
    rw [hloop]
    simp only [hdne, Bool.false_eq_true, if_false]
    rw [dlookup_append, dlookup_map_chop hk hkeys, hlk k]
    cases hc : dlookup k (entryPlaylistOf e) with
    | some v => rfl
    | none => exact dlookup_tail_none hk _
  · intro e1 he1 e2 he2 k hk v1 v2 h1 ht1 h2 ht2 hne k2 hk2
    have hck : playlistKeys.contains k = true := List.elem_eq_true_of_mem hk
    have hf1 : dlookup k (entryPlaylistOf e1) = some v1 :=
      dlookup_filter_of_pass h1 (by simp [ht1, hck, hk])
    have hf2 : dlookup k (entryPlaylistOf e2) = some v2 :=
      dlookup_filter_of_pass h2 (by simp [ht2, hck, hk])
    have hne1 : (entryPlaylistOf e1).isEmpty = false :=
      isEmpty_false_of_ne_nil (ne_nil_of_dlookup hf1)
    have hne2 : (entryPlaylistOf e2).isEmpty = false :=
      isEmpty_false_of_ne_nil (ne_nil_of_dlookup hf2)
    cases hl : entriesPlaylistLoop none entries with
    | some d =>
      exfalso
      obtain ⟨_, hall⟩ := mergeLoop_none_char entries d hl
      have hv12 : some v1 = some v2 := by
        rw [← hf1, ← hf2, hall e1 he1 hne1 k, hall e2 he2 hne2 k]
      rw [Option.some.inj hv12, jvalBeq_refl v2] at hne
      exact Bool.noConfusion hne
    | none =>
      unfold entries_to_playlist
      rw [hl]
      simp only [List.nil_append]
      exact dlookup_tail_none hk2 _

/-- Witness for C1: two records sharing `playlist_id` and
`playlist_title` synthesize an `id` in the collection metadata. -/
theorem entries_to_playlist_common_meta_witness :
    dlookup "id" (entries_to_playlist
      [[("id", JVal.str "v1"), ("playlist_id", JVal.str "PL1"),
        ("playlist_title", JVal.str "List T")],
       [("playlist_title", JVal.str "List T"), ("playlist_id", JVal.str "PL1")]]) =
      some (JVal.str "PL1") := by
  have h := (entries_to_playlist_common_meta
      [[("id", JVal.str "v1"), ("playlist_id", JVal.str "PL1"),
        ("playlist_title", JVal.str "List T")],
       [("playlist_title", JVal.str "List T"), ("playlist_id", JVal.str "PL1")]]).1
    (by decide)
    [("id", JVal.str "v1"), ("playlist_id", JVal.str "PL1"),
      ("playlist_title", JVal.str "List T")]
    (List.mem_cons_self _ _) (by decide) "playlist_id" (by decide)
  exact h.trans (by rfl)

/-- Dropping a falsy binding does not change the truthy playlist
metadata of an entry. -/
theorem entryPlaylistOf_falsy (e1 e2 : Dict) (k : String) (v : JVal)
    (hv : jTruthy v = false) :
    entryPlaylistOf (e1 ++ (k, v) :: e2) = entryPlaylistOf (e1 ++ e2) := by
  unfold entryPlaylistOf
  simp [List.filter_append, List.filter_cons, hv]

/-- The scan only depends on the truthy playlist metadata of each entry. -/
theorem mergeLoop_congr :
    ∀ (acc : Option Dict) (l1 l2 : List Dict) (x y : Dict),
      entryPlaylistOf x = entryPlaylistOf y →
      entriesPlaylistLoop acc (l1 ++ x :: l2) = entriesPlaylistLoop acc (l1 ++ y :: l2)
  | acc, [], l2, x, y, h => by
    simp only [List.nil_append, entriesPlaylistLoop, h]
  | acc, z :: r, l2, x, y, h => by
    simp only [List.cons_append, entriesPlaylistLoop]
    cases hz : (entryPlaylistOf z).isEmpty with
    | true =>
      simp only [if_true]
      exact mergeLoop_congr acc r l2 x y h
    | false =>
      simp only [Bool.false_eq_true, if_false]
      cases acc with
      | none => exact mergeLoop_congr (some (entryPlaylistOf z)) r l2 x y h
      | some d =>
        cases hde : dictEqb (entryPlaylistOf z) d with
        | true => simp only [hde, if_true]; exact mergeLoop_congr (some d) r l2 x y h
        | false => simp only [hde, Bool.false_eq_true, if_false]

/-- C10: in merge synthesis, a `playlist_*` key whose value is falsy on
some item is treated exactly as if that item did not define the key at
all: the synthesized channel metadata (the chopped key lookups) is the
same with the binding and without it, so the falsy value is never copied
and never counts as a disagreement. -/
theorem entries_to_playlist_falsy_ignored
    (l1 l2 : List Dict) (e1 e2 : Dict) (k : String) (v : JVal)
    (_hk : k ∈ playlistKeys) (hv : jTruthy v = false) :
    ∀ k2 ∈ playlistKeys,
      dlookup (chop9 k2) (entries_to_playlist (l1 ++ (e1 ++ (k, v) :: e2) :: l2)) =
      dlookup (chop9 k2) (entries_to_playlist (l1 ++ (e1 ++ e2) :: l2)) := by
  intro k2 hk2
  have hcong := mergeLoop_congr none l1 l2 _ _ (entryPlaylistOf_falsy e1 e2 k v hv)
  unfold entries_to_playlist
  rw [hcong]
  cases hl : entriesPlaylistLoop none (l1 ++ (e1 ++ e2) :: l2) with
  | none =>
    simp only [List.nil_append]
    rw [dlookup_tail_none hk2 _, dlookup_tail_none hk2 _]
  | some d =>
    cases hde : d.isEmpty with
    | true =>
      simp only [hde, if_true, List.nil_append]
      rw [dlookup_tail_none hk2 _, dlookup_tail_none hk2 _]
    | false =>
      simp only [hde, Bool.false_eq_true, if_false]
      rw [dlookup_append, dlookup_append]
      cases dlookup (chop9 k2) (d.map fun kv => (chop9 kv.1, kv.2)) with
      | some w => rfl
      | none => rw [dlookup_tail_none hk2 _, dlookup_tail_none hk2 _]

/-- Witness for C10: an empty string `playlist_title` neither blocks nor
feeds synthesis; the shared `playlist_id` is still synthesized. -/
theorem entries_to_playlist_falsy_ignored_witness :
    jTruthy (JVal.str "") = false ∧
    dlookup "id" (entries_to_playlist
      [[("playlist_id", JVal.str "PL1"), ("playlist_title", JVal.str "")],
       [("playlist_id", JVal.str "PL1")]]) =
    dlookup "id" (entries_to_playlist
      [[("playlist_id", JVal.str "PL1")], [("playlist_id", JVal.str "PL1")]]) := by
  refine ⟨rfl, ?_⟩
  have h := entries_to_playlist_falsy_ignored
    [] [[("playlist_id", JVal.str "PL1")]]
    [("playlist_id", JVal.str "PL1")] []
    "playlist_title" (JVal.str "") (by decide) rfl
    "playlist_id" (by decide)
  exact h

/-- An `isArrB` success exposes the list. -/
theorem isArrB_some {o : Option JVal} (h : isArrB o = true) :
    ∃ l, o = some (JVal.arr l) := by
  cases o with
  | none => exact Bool.noConfusion h
  | some v =>
    cases v with
    | arr l => exact ⟨l, rfl⟩
    | null => exact Bool.noConfusion h
    | bool b => exact Bool.noConfusion h
    | int n => exact Bool.noConfusion h
    | str s => exact Bool.noConfusion h
    | obj d => exact Bool.noConfusion h

/-- C2: when the loader is given exactly one input location and that
document parses as a collection record (non-null `entries` list of item
records, no `formats` list), the loader returns that record itself as the
merged collection, with all of its author-supplied channel-level metadata
fields unchanged, rather than synthesizing new channel metadata. -/
theorem load_info_single_collection (p : String) (d : Dict)
    (he : isArrB (dlookup "entries" d) = true)
    (hf : isArrB (dlookup "formats" d) = false)
    (ho : (asArr (dlookup "entries" d)).all isObjB = true) :
    load_info [(p, d)] = .ok d := by
  obtain ⟨l, hl⟩ := isArrB_some he
  have hdne : d.isEmpty = false :=
    isEmpty_false_of_ne_nil (ne_nil_of_dlookup hl)
  unfold load_info loadInfoLoop
  simp [he, hf, ho, odictTruthy, hdne]
  simp [loadInfoLoop, odictTruthy, hdne]

/-- A document whose markers agree fails classification. -/
theorem docOkB_of_mark_eq {d : Dict}
    (h : isArrB (dlookup "entries" d) = isArrB (dlookup "formats" d)) :
    docOkB d = false := by
  simp [docOkB, h]

/-- A single video document passes its loader iteration. -/
theorem docOkB_of_formats {d : Dict}
    (hne : ¬isArrB (dlookup "entries" d) = isArrB (dlookup "formats" d))
    (hf : isArrB (dlookup "formats" d) = true) :
    docOkB d = true := by
  simp [docOkB, hf]
  simp [hf] at hne
  simp [hne]

/-- A collection document with object entries passes its loader
iteration. -/
theorem docOkB_of_playlist {d : Dict}
    (hne : ¬isArrB (dlookup "entries" d) = isArrB (dlookup "formats" d))
    (hf : isArrB (dlookup "formats" d) = false)
    (ho : (asArr (dlookup "entries" d)).all isObjB = true) :
    docOkB d = true := by
  simp [docOkB, hf, ho]
  simp [hf] at hne
  simp [hne]

/-- A collection document with a non-object entry fails its loader
iteration (path tagging raises), though not with a classification
error. -/
theorem docOkB_of_badentries {d : Dict}
    (hf : isArrB (dlookup "formats" d) = false)
    (ho : (asArr (dlookup "entries" d)).all isObjB = false) :
    docOkB d = false := by
  simp [docOkB, hf, ho]

/-- The classification error of the loader loop, characterised: it is
raised for location `p` exactly when some document at `p` has equal shape
markers and every document before it processed cleanly. -/
theorem loadInfoLoop_unrecognized :
    ∀ (infos : List (String × Dict)) (entries : List Dict) (c : Nat)
      (lp : Option Dict) (p : String),
      loadInfoLoop infos entries c lp = .error (.unrecognized p) ↔
      ∃ pre d post, infos = pre ++ (p, d) :: post ∧
        (∀ q ∈ pre, docOkB q.2 = true) ∧
        isArrB (dlookup "entries" d) = isArrB (dlookup "formats" d)
  | [], entries, c, lp, p => by
    constructor
    · intro h
      exfalso
      simp only [loadInfoLoop] at h
      cases hc : (c == 1 && odictTruthy lp) with
      | true => rw [hc] at h; simp at h
      | false => rw [hc] at h; simp at h
    · rintro ⟨pre, d, post, heq, -, -⟩
      exact absurd heq (List.append_ne_nil_of_right_ne_nil pre (List.cons_ne_nil _ _)).symm
  | (q, dq) :: rest, entries, c, lp, p => by
    by_cases hmark : isArrB (dlookup "entries" dq) = isArrB (dlookup "formats" dq)
    · have hbeq : (isArrB (dlookup "entries" dq) == isArrB (dlookup "formats" dq)) = true := by
        simp [hmark]
      constructor
      · intro h
        simp only [loadInfoLoop, hbeq, if_true] at h
        have hqp : q = p := by
          have := Except.error.inj h
          exact LoadError.unrecognized.inj this
        exact ⟨[], dq, rest, by rw [hqp]; rfl,
          by intro x hx; exact absurd hx (List.not_mem_nil x), hmark⟩
      · rintro ⟨pre, d, post, heq, hpre, hmk⟩
        cases pre with
        | nil =>
          simp only [List.nil_append, List.cons.injEq, Prod.mk.injEq] at heq
          obtain ⟨⟨hq, -⟩, -⟩ := heq
          simp only [loadInfoLoop, hbeq, if_true, hq]
        | cons q0 pre1 =>
          exfalso
          simp only [List.cons_append, List.cons.injEq] at heq
          have hok := hpre q0 (List.mem_cons_self _ _)
          rw [← heq.1] at hok
          rw [docOkB_of_mark_eq hmark] at hok
          exact Bool.noConfusion hok
    · have hbeq : (isArrB (dlookup "entries" dq) == isArrB (dlookup "formats" dq)) = false := by
        simp [hmark]
      have step :
          ∀ entries1 c1 lp1,
            (loadInfoLoop rest entries1 c1 lp1 = .error (.unrecognized p) ↔
              ∃ pre d post, rest = pre ++ (p, d) :: post ∧
                (∀ q1 ∈ pre, docOkB q1.2 = true) ∧
                isArrB (dlookup "entries" d) = isArrB (dlookup "formats" d)) :=
        fun entries1 c1 lp1 => loadInfoLoop_unrecognized rest entries1 c1 lp1 p
      have hdocok :
          docOkB dq = true →
          ((∃ pre d post, ((q, dq) :: rest : List (String × Dict)) = pre ++ (p, d) :: post ∧
              (∀ q1 ∈ pre, docOkB q1.2 = true) ∧
              isArrB (dlookup "entries" d) = isArrB (dlookup "formats" d)) ↔
            (∃ pre d post, rest = pre ++ (p, d) :: post ∧
              (∀ q1 ∈ pre, docOkB q1.2 = true) ∧
              isArrB (dlookup "entries" d) = isArrB (dlookup "formats" d))) := by
        intro hok
        constructor
        · rintro ⟨pre, d, post, heq, hpre, hmk⟩
          cases pre with
          | nil =>
            simp only [List.nil_append, List.cons.injEq, Prod.mk.injEq] at heq
            obtain ⟨⟨-, hd⟩, -⟩ := heq
            rw [← hd] at hmk
            exact absurd hmk hmark
          | cons q0 pre1 =>
            simp only [List.cons_append, List.cons.injEq] at heq
            exact ⟨pre1, d, post, heq.2,
              fun q1 hq1 => hpre q1 (List.mem_cons_of_mem _ hq1), hmk⟩
        · rintro ⟨pre, d, post, heq, hpre, hmk⟩
          refine ⟨(q, dq) :: pre, d, post, by rw [List.cons_append, heq], ?_, hmk⟩
          intro q1 hq1
          rcases List.mem_cons.mp hq1 with h1 | h1
          · rw [h1]; exact hok
          · exact hpre q1 h1
      cases hf : isArrB (dlookup "formats" dq) with
      | true =>
        have hok := docOkB_of_formats hmark hf
        simp only [loadInfoLoop, hbeq, Bool.false_eq_true, if_false]
        rw [hf]
        simp only [if_true]
        exact (step _ _ _).trans (hdocok hok).symm
      | false =>
        cases ho : (asArr (dlookup "entries" dq)).all isObjB with
        | true =>
          have hok := docOkB_of_playlist hmark hf ho
          simp only [loadInfoLoop, hbeq, Bool.false_eq_true, if_false]
          rw [hf]
          simp only [Bool.false_eq_true, if_false]
          rw [ho]
          simp only [if_true]
          exact (step _ _ _).trans (hdocok hok).symm
        | false =>
          simp only [loadInfoLoop, hbeq, Bool.false_eq_true, if_false]
          rw [hf]
          simp only [Bool.false_eq_true, if_false]
          rw [ho]
          simp only [Bool.false_eq_true, if_false]
          constructor
          · intro h
            exact LoadError.noConfusion (Except.error.inj h)
          · rintro ⟨pre, d, post, heq, hpre, hmk⟩
            cases pre with
            | nil =>
              simp only [List.nil_append, List.cons.injEq, Prod.mk.injEq] at heq
              obtain ⟨⟨-, hd⟩, -⟩ := heq
              rw [← hd] at hmk
              exact absurd hmk hmark
            | cons q0 pre1 =>
              exfalso
              simp only [List.cons_append, List.cons.injEq] at heq
              have hok := hpre q0 (List.mem_cons_self _ _)
              rw [← heq.1] at hok
              rw [docOkB_of_badentries hf ho] at hok
              exact Bool.noConfusion hok

/-- C3: for every input document processed by the loader, classification
raises an error naming that document location if and only if the
document `entries` and `formats` markers are both non-null lists or
neither is; a document with exactly one of the two markers present as a
non-null list is accepted (the loader moves past it, so the error can
only name a later location). -/
theorem load_info_classification (infos : List (String × Dict)) (p : String) :
    load_info infos = .error (.unrecognized p) ↔
    ∃ pre d post, infos = pre ++ (p, d) :: post ∧
      (∀ q ∈ pre, docOkB q.2 = true) ∧
      isArrB (dlookup "entries" d) = isArrB (dlookup "formats" d) :=
  loadInfoLoop_unrecognized infos [] 0 none p

/-- Witness for C2: a hand-authored collection document passes through
the loader unchanged. -/
theorem load_info_single_collection_witness :
    load_info [("a.json",
      [("title", JVal.str "Hand Authored"),
       ("entries", JVal.arr [JVal.obj [("id", JVal.str "x")]]),
       ("uploader", JVal.str "me")])] =
    .ok [("title", JVal.str "Hand Authored"),
         ("entries", JVal.arr [JVal.obj [("id", JVal.str "x")]]),
         ("uploader", JVal.str "me")] :=
  load_info_single_collection "a.json"
    [("title", JVal.str "Hand Authored"),
     ("entries", JVal.arr [JVal.obj [("id", JVal.str "x")]]),
     ("uploader", JVal.str "me")]
    (by decide) (by decide) (by decide)

/-- String append acts as list append on the characters. -/
theorem str_append_data (a b : String) : (a ++ b).data = a.data ++ b.data := rfl

/-- Appending to a nonempty string stays nonempty. -/
theorem append_ne_empty_left {a : String} (h : a ≠ "") (b : String) : a ++ b ≠ "" := by
  intro hc
  apply h
  have hd := congrArg String.data hc
  rw [str_append_data] at hd
  have ha : a.data = [] := (List.append_eq_nil.mp hd).1
  cases a with
  | mk l =>
    simp only at ha
    rw [ha]

/-- A conditional of nonempty strings is nonempty. -/
theorem ifStr_ne_empty {c : Prop} [Decidable c] {s t : String}
    (hs : s ≠ "") (ht : t ≠ "") : (if c then s else t) ≠ "" := by
  split
  · exact hs
  · exact ht

/-- The family chooser is never empty. -/
theorem famStr_ne_empty (a v : Option String) :
    (if ostrTruthy a && !ostrTruthy v then "audio/" else "video/") ≠ ("" : String) :=
  ifStr_ne_empty (by decide) (by decide)

/-- An extension outside the table differs from each table entry. -/
theorem beq_false_of_not_special {ext s : String} (hs : s ∈ specialExts)
    (h : ¬ ext ∈ specialExts) : (ext == s) = false :=
  beq_eq_false_iff_ne.mpr (fun he => h (he ▸ hs))

/-- An extension outside the table is in none of its sublists. -/
theorem contains_false_of_subset {L : List String} {ext : String}
    (hsub : ∀ x ∈ L, x ∈ specialExts) (h : ¬ ext ∈ specialExts) :
    L.contains ext = false := by
  cases hcc : L.contains ext with
  | false => rfl
  | true => exact absurd (hsub ext (List.mem_of_elem_eq_true hcc)) h

/-- For extensions outside the table, the dispatch chain falls through
to the verbatim family and subtype. -/
theorem mediaTypeBase_default {ext : String} (a v : Option String)
    (h : ¬ ext ∈ specialExts) :
    mediaTypeBase ext a v =
      (ext, a, (if ostrTruthy a && !ostrTruthy v then "audio/" else "video/") ++ ext) := by
  have hb01 : (ext == "3g2") = false := beq_false_of_not_special (by decide) h
  have hb02 : (ext == "3gp") = false := beq_false_of_not_special (by decide) h
  have hb03 : (ext == "avi") = false := beq_false_of_not_special (by decide) h
  have hb04 : (ext == "flv") = false := beq_false_of_not_special (by decide) h
  have hb05 : (ext == "gif") = false := beq_false_of_not_special (by decide) h
  have hb06 : (ext == "mka") = false := beq_false_of_not_special (by decide) h
  have hb07 : (ext == "mp3") = false := beq_false_of_not_special (by decide) h
  have hb08 : (ext == "ogg") = false := beq_false_of_not_special (by decide) h
  have hb09 : (ext == "opus") = false := beq_false_of_not_special (by decide) h
  have hb10 : (ext == "ogv") = false := beq_false_of_not_special (by decide) h
  have hb11 : (ext == "wav") = false := beq_false_of_not_special (by decide) h
  have hc1 : (["f4a", "f4b", "f4p", "m4a", "m4b", "m4p", "m4r"].contains ext) = false :=
    contains_false_of_subset (by decide) h
  have hc2 : (["f4v", "m4v"].contains ext) = false :=
    contains_false_of_subset (by decide) h
  have hc3 : (["mk3d", "mks", "mkv"].contains ext) = false :=
    contains_false_of_subset (by decide) h
  simp only [mediaTypeBase, hb01, hb02, hb03, hb04, hb05, hb06, hb07, hb08, hb09,
    hb10, hb11, hc1, hc2, hc3, Bool.false_eq_true, if_false]

/-- Every branch of the dispatch chain produces a nonempty media type. -/
theorem mediaTypeBase_ne_empty (ext : String) (a v : Option String) :
    (mediaTypeBase ext a v).2.2 ≠ "" := by
  by_cases h : ext ∈ specialExts
  · simp only [specialExts, List.mem_cons, List.not_mem_nil, or_false] at h
    rcases h with rfl | rfl | rfl | rfl | rfl | rfl | rfl | rfl | rfl | rfl | rfl | rfl |
      rfl | rfl | rfl | rfl | rfl | rfl | rfl | rfl | rfl | rfl | rfl
    all_goals first
      | exact (by decide : "video/vnd.avi" ≠ "")
      | exact (by decide : "video/x-flv" ≠ "")
      | exact (by decide : "image/gif" ≠ "")
      | exact (by decide : "audio/mpeg" ≠ "")
      | exact (by decide : "audio/ogg" ≠ "")
      | exact (by decide : "audio/vnd.wave" ≠ "")
      | exact append_ne_empty_left (famStr_ne_empty a v) _
      | exact append_ne_empty_left (ifStr_ne_empty (by decide) (famStr_ne_empty a v)) _
      | exact ifStr_ne_empty (by decide) (append_ne_empty_left (famStr_ne_empty a v) _)
  · rw [mediaTypeBase_default a v h]
    exact append_ne_empty_left (famStr_ne_empty a v) _

/-- C4: the MIME type inferrer is total on its documented domain: for
every extension string and arbitrary optional codec strings (including
the sentinel `none`, absent keys, and extensions outside the special
case table), `get_entry_media_type` returns a non-empty string, and an
unrecognized extension maps to `audio/<ext>` or `video/<ext>` according
to codec presence, followed by the usual codecs parameter. -/
theorem get_entry_media_type_total (ext : String) (acodec vcodec : Option String) :
    get_entry_media_type ext acodec vcodec ≠ "" ∧
    (¬ ext ∈ specialExts →
      get_entry_media_type ext acodec vcodec =
        (if ostrTruthy (normCodec acodec) && !ostrTruthy (normCodec vcodec) then "audio/"
         else "video/") ++ ext ++ codecsParam ext (normCodec acodec) (normCodec vcodec)) := by
  constructor
  · simp only [get_entry_media_type]
    exact append_ne_empty_left
      (mediaTypeBase_ne_empty ext (normCodec acodec) (normCodec vcodec)) _
  · intro h
    simp only [get_entry_media_type]
    rw [mediaTypeBase_default (normCodec acodec) (normCodec vcodec) h]

/-- Witness for C4: the unrecognized extension `webm` with an audio
codec only. -/
theorem get_entry_media_type_total_witness :
    get_entry_media_type "webm" (some "opus") none ≠ "" ∧
    get_entry_media_type "webm" (some "opus") none = "audio/webm; codecs=opus" := by
  refine ⟨(get_entry_media_type_total "webm" (some "opus") none).1, ?_⟩
  have h := (get_entry_media_type_total "webm" (some "opus") none).2 (by decide)
  exact h.trans (by decide)

/-- Counterexample for C5: an entry with extension `opus`, no audio
codec, and video codec `vp9` is not rendered as
`audio/ogg; codecs=opus`; the video codec joins the codecs parameter. -/
theorem opus_counterexample :
    get_entry_media_type "opus" none (some "vp9") = "audio/ogg; codecs=\"vp9, opus\"" ∧
    ¬ get_entry_media_type "opus" none (some "vp9") = "audio/ogg; codecs=opus" := by
  constructor
  · rfl
  · decide

/-- C5 (amended): for every entry with extension `opus`, no audio codec
specified, and no effective video codec (absent, `'none'` or empty),
`get_entry_media_type` treats it as Opus-in-Ogg and returns exactly
`audio/ogg; codecs=opus`. -/
theorem opus_media_type (vcodec : Option String)
    (hv : ostrTruthy (normCodec vcodec) = false) :
    get_entry_media_type "opus" none vcodec = "audio/ogg; codecs=opus" := by
  simp only [get_entry_media_type]
  have hmb : mediaTypeBase "opus" (normCodec none) (normCodec vcodec) =
      ("ogg", some "opus", "audio/ogg") := rfl
  rw [hmb]
  simp only [codecsParam, hv]
  rw [if_pos (by decide :
    ((ostrTruthy (some "opus") || false) && ! ["flv", "gif", "mp3"].contains "ogg") = true)]
  rw [if_neg (by decide : ¬ (ostrTruthy (some "opus") && false) = true)]
  rw [if_pos (by decide : ostrTruthy (some "opus") = true)]
  rfl

/-- Witness for C5: video codec sentinel `'none'`. -/
theorem opus_media_type_witness :
    ostrTruthy (normCodec (some "none")) = false ∧
    get_entry_media_type "opus" none (some "none") = "audio/ogg; codecs=opus" :=
  ⟨by decide, opus_media_type (some "none") (by decide)⟩

/-- Every month has at least 28 days. -/
theorem monthLen_ge (leap : Bool) (m : Nat) : 28 ≤ monthLen leap m := by
  unfold monthLen
  split
  · split <;> omega
  · split <;> omega

/-- Every month has at most 31 days. -/
theorem monthLen_le (leap : Bool) (m : Nat) : monthLen leap m ≤ 31 := by
  unfold monthLen
  split
  · split <;> omega
  · split <;> omega

/-- A one character day token is a day between 1 and 9. -/
theorem dayTok1_bounds {c : Char} {d : Nat} (h : dayTokVal [c] = some d) :
    1 ≤ d ∧ d ≤ 9 := by
  simp only [dayTokVal] at h
  by_cases hc : (decide (49 ≤ c.toNat) && decide (c.toNat ≤ 57)) = true
  · rw [if_pos hc] at h
    simp at hc
    have hv := Option.some.inj h
    unfold digitVal at hv
    omega
  · rw [if_neg hc] at h
    exact Option.noConfusion h

/-- The month token never matches the empty remainder. -/
theorem monthTokVal_nil : monthTokVal [] = none := rfl

/-- The month token never matches three or more characters. -/
theorem monthTokVal_long (a b c : Char) (t : List Char) :
    monthTokVal (a :: b :: c :: t) = none := rfl

/-- The day token never matches the empty remainder. -/
theorem dayTokVal_nil : dayTokVal [] = none := rfl

/-- The day token never matches three or more characters. -/
theorem dayTokVal_long (a b c : Char) (t : List Char) :
    dayTokVal (a :: b :: c :: t) = none := rfl

/-- The validity guard of the parser, read off as a Boolean. -/
theorem isSome_if {P : Prop} [Decidable P] {x : Nat × Nat × Nat} :
    (if P then some x else none).isSome = decide P := by
  by_cases h : P <;> simp [h]

/-- The date parser succeeds exactly on the declarative lenient
pattern: regex preference order never loses a full match. -/
theorem parseYmd_isSome_eq_lenient (s : String) :
    (parseYmd s).isSome = ymdLenient s := by
  unfold parseYmd parseYmdTokens ymdLenient
  simp only [List.any_cons, List.any_nil, Bool.or_false]
  cases hguard : ((s.data.take 4).length == 4 && (s.data.take 4).all isDig) with
  | false =>
    simp only [hguard, Bool.false_eq_true, if_false, Option.isSome_none, Bool.false_and]
  | true =>
    simp only [hguard, if_true, Bool.true_and]
    rcases hr : s.data.drop 4 with _ | ⟨a, _ | ⟨b, _ | ⟨c, _ | ⟨d0, _ | t⟩⟩⟩⟩ <;>
      simp only [hr, List.take, List.drop]
    · simp only [monthTokVal_nil, dayTokVal_nil, Option.isSome_none, Bool.or_false]
    · simp only [dayTokVal_nil]
      cases hm : monthTokVal [a] <;> simp [hm]
    · cases hm : monthTokVal [a] with
      | none =>
        cases hm2 : monthTokVal [a, b] <;>
          simp [hm, hm2, dayTokVal_nil]
      | some m =>
        cases hd : dayTokVal [b] with
        | none =>
          cases hm2 : monthTokVal [a, b] <;> simp [hm, hd, hm2, dayTokVal_nil]
        | some d =>
          cases hm2 : monthTokVal [a, b] <;>
            simp [hm, hd, hm2, dayTokVal_nil, isSome_if]
    · cases hm2 : monthTokVal [a, b] with
      | some m2 =>
        cases hd1 : dayTokVal [c] with
        | some d1 =>
          simp only [hm2, hd1, isSome_if]
          cases hm1 : monthTokVal [a] with
          | none => simp [hm1]
          | some m1 =>
            cases hd2 : dayTokVal [b, c] with
            | none => simp [hd2]
            | some d2 =>
              simp only [hd2]
              by_cases hy : 1 ≤ natOfDigits (s.data.take 4)
              · have hv2 : (1 ≤ natOfDigits (s.data.take 4) ∧
                    d1 ≤ monthLen (isLeapB (natOfDigits (s.data.take 4))) m2) := by
                  refine ⟨hy, ?_⟩
                  have hb := (dayTok1_bounds hd1).2
                  have hml := monthLen_ge (isLeapB (natOfDigits (s.data.take 4))) m2
                  omega
                simp [hv2]
              · have hv1 : ¬(1 ≤ natOfDigits (s.data.take 4) ∧
                    d2 ≤ monthLen (isLeapB (natOfDigits (s.data.take 4))) m1) :=
                  fun hc => hy hc.1
                have hv2 : ¬(1 ≤ natOfDigits (s.data.take 4) ∧
                    d1 ≤ monthLen (isLeapB (natOfDigits (s.data.take 4))) m2) :=
                  fun hc => hy hc.1
                simp [hv1, hv2]
        | none =>
          simp only [hm2, hd1]
          cases hm1 : monthTokVal [a] with
          | none => simp [hm1]
          | some m1 =>
            cases hd2 : dayTokVal [b, c] with
            | none => simp [hd2]
            | some d2 => simp [hd2, isSome_if]
      | none =>
        simp only [hm2]
        cases hm1 : monthTokVal [a] with
        | none => simp [hm1]
        | some m1 =>
          cases hd2 : dayTokVal [b, c] with
          | none => simp [hd2]
          | some d2 => simp [hd2, isSome_if]
    · cases hm2 : monthTokVal [a, b] with
      | none => simp [hm2, dayTokVal_long]
      | some m2 =>
        cases hd2 : dayTokVal [c, d0] with
        | none => simp [hm2, hd2, dayTokVal_long]
        | some d2 => simp [hm2, hd2, dayTokVal_long, isSome_if]
    · simp only [monthTokVal_long, dayTokVal_long]
      cases hm1 : monthTokVal [a] <;> simp [hm1, dayTokVal_long]

/-- Any two digit rendering of a month 1 to 12 is a month token. -/
theorem monthTok_of_range {a b : Char} (ha : isDig a = true) (hb : isDig b = true)
    (h1 : 1 ≤ 10 * digitVal a + digitVal b) (h2 : 10 * digitVal a + digitVal b ≤ 12) :
    monthTokVal [a, b] = some (10 * digitVal a + digitVal b) := by
  unfold isDig at ha hb
  unfold digitVal at *
  simp at ha hb
  simp only [monthTokVal]
  by_cases hca : a.toNat = 49
  · have hcb : 48 ≤ b.toNat ∧ b.toNat ≤ 50 := by omega
    have hcond : (a.toNat == 49 && (decide (48 ≤ b.toNat) && decide (b.toNat ≤ 50))) = true := by
      simp [hca, hcb.1, hcb.2]
    rw [if_pos hcond]
    unfold digitVal
    congr 1
    omega
  · have hca0 : a.toNat = 48 := by omega
    have hcond : ¬ (a.toNat == 49 && (decide (48 ≤ b.toNat) && decide (b.toNat ≤ 50))) = true := by
      simp [hca]
    rw [if_neg hcond]
    have hcb : 49 ≤ b.toNat ∧ b.toNat ≤ 57 := by omega
    have hcond2 : (a.toNat == 48 && (decide (49 ≤ b.toNat) && decide (b.toNat ≤ 57))) = true := by
      simp [hca0, hcb.1, hcb.2]
    rw [if_pos hcond2]
    unfold digitVal
    congr 1
    omega

/-- Any two digit rendering of a day 1 to 31 is a day token. -/
theorem dayTok_of_range {a b : Char} (ha : isDig a = true) (hb : isDig b = true)
    (h1 : 1 ≤ 10 * digitVal a + digitVal b) (h2 : 10 * digitVal a + digitVal b ≤ 31) :
    dayTokVal [a, b] = some (10 * digitVal a + digitVal b) := by
  unfold isDig at ha hb
  unfold digitVal at *
  simp at ha hb
  simp only [dayTokVal]
  by_cases hca : a.toNat = 51
  · have hcb : 48 ≤ b.toNat ∧ b.toNat ≤ 49 := by omega
    have hcond : (a.toNat == 51 && (decide (48 ≤ b.toNat) && decide (b.toNat ≤ 49))) = true := by
      simp [hca, hcb.1, hcb.2]
    rw [if_pos hcond]
    unfold digitVal
    congr 1
    omega
  · have hcond : ¬ (a.toNat == 51 && (decide (48 ≤ b.toNat) && decide (b.toNat ≤ 49))) = true := by
      simp [hca]
    rw [if_neg hcond]
    by_cases hca2 : a.toNat = 49 ∨ a.toNat = 50
    · have hcond2 : ((a.toNat == 49 || a.toNat == 50)
          && (decide (48 ≤ b.toNat) && decide (b.toNat ≤ 57))) = true := by
        rcases hca2 with hx | hx <;> simp [hx, hb.1, hb.2]
      rw [if_pos hcond2]
      unfold digitVal
      rfl
    · have hca0 : a.toNat = 48 := by omega
      have hcond2 : ¬ ((a.toNat == 49 || a.toNat == 50)
          && (decide (48 ≤ b.toNat) && decide (b.toNat ≤ 57))) = true := by
        simp [hca0]
      rw [if_neg hcond2]
      have hcb : 49 ≤ b.toNat ∧ b.toNat ≤ 57 := by omega
      have hcond3 : (a.toNat == 48 && (decide (49 ≤ b.toNat) && decide (b.toNat ≤ 57))) = true := by
        simp [hca0, hcb.1, hcb.2]
      rw [if_pos hcond3]
      unfold digitVal
      congr 1
      omega

/-- Every spec-valid date string (exactly 8 digits, real calendar
date) matches the lenient pattern. -/
theorem specValid_lenient {s : String} (h : specValidYMD s = true) :
    ymdLenient s = true := by
  unfold specValidYMD at h
  simp only [Bool.and_eq_true, decide_eq_true_eq] at h
  obtain ⟨⟨h1, h2⟩, ⟨⟨⟨⟨hy, hm1⟩, hm2⟩, hd1⟩, hd2⟩⟩ := h
  have hlen : s.data.length = 8 := by simpa using h1
  obtain ⟨c1, c2, c3, c4, c5, c6, c7, c8, hs⟩ :
      ∃ a1 a2 a3 a4 a5 a6 a7 a8, s.data = [a1, a2, a3, a4, a5, a6, a7, a8] := by
    clear h1 h2 hy hm1 hm2 hd1 hd2
    rcases hdata : s.data with _ | ⟨a1, _ | ⟨a2, _ | ⟨a3, _ | ⟨a4, _ | ⟨a5, _ | ⟨a6, _ |
        ⟨a7, _ | ⟨a8, t⟩⟩⟩⟩⟩⟩⟩⟩ <;>
      rw [hdata] at hlen <;>
      simp only [List.length_cons, List.length_nil] at hlen
    all_goals try omega
    have ht : t = [] := by
      have h0 : t.length = 0 := by omega
      exact List.length_eq_zero.mp h0
    subst ht
    exact ⟨a1, a2, a3, a4, a5, a6, a7, a8, rfl⟩
  rw [hs] at h2 hy hm1 hm2 hd1 hd2
  have hdig : ∀ c ∈ [c1, c2, c3, c4, c5, c6, c7, c8], isDig c = true :=
    List.all_eq_true.mp h2
  have hmv : natOfDigits ((([c1, c2, c3, c4, c5, c6, c7, c8] : List Char).drop 4).take 2)
      = 10 * digitVal c5 + digitVal c6 := by
    simp [natOfDigits]
  have hdv : natOfDigits (([c1, c2, c3, c4, c5, c6, c7, c8] : List Char).drop 6)
      = 10 * digitVal c7 + digitVal c8 := by
    simp [natOfDigits]
  rw [hmv] at hm1 hm2 hd2
  rw [hdv] at hd1 hd2
  have htm : monthTokVal [c5, c6] = some (10 * digitVal c5 + digitVal c6) :=
    monthTok_of_range (hdig c5 (by simp)) (hdig c6 (by simp)) hm1 hm2
  have htd : dayTokVal [c7, c8] = some (10 * digitVal c7 + digitVal c8) :=
    dayTok_of_range (hdig c7 (by simp)) (hdig c8 (by simp)) hd1
      (by
        have hub := monthLen_le (isLeapB (natOfDigits (([c1, c2, c3, c4, c5, c6, c7, c8] :
          List Char).take 4))) (10 * digitVal c5 + digitVal c6)
        omega)
  unfold ymdLenient
  rw [hs]
  simp only [List.take, List.drop, List.any_cons, List.any_nil, Bool.or_false]
  rw [htm, htd]
  have hy4 : 1 ≤ natOfDigits [c1, c2, c3, c4] := by simpa using hy
  have hd24 : 10 * digitVal c7 + digitVal c8 ≤
      monthLen (isLeapB (natOfDigits [c1, c2, c3, c4])) (10 * digitVal c5 + digitVal c6) := by
    simpa using hd2
  simp only [Bool.and_eq_true]
  refine ⟨⟨by simp, ?_⟩, ?_⟩
  · simp only [List.all_eq_true]
    intro c hc
    exact hdig c (by simp at hc ⊢; tauto)
  rw [decide_eq_true ⟨hy4, hd24⟩, Bool.or_true]

/-- The date normalizer raises exactly when parsing fails. -/
theorem ymd_isOk_eq_parse (s : String) :
    (ymd_to_rfc2822 s).isOk = (parseYmd s).isSome := by
  unfold ymd_to_rfc2822
  cases hp : parseYmd s with
  | none => rfl
  | some t =>
    obtain ⟨y, m, d⟩ := t
    rfl

/-- C6 (amended): the date normalizer raises a parse error if and only
if the input fails the lenient `strptime` pattern (exactly four year
digits, a one or two digit month, a one or two digit day consuming the
whole string, forming a real calendar date of year at least 1); in
particular every input that is exactly 8 digits forming a valid
calendar date returns without raising, but some 6 and 7 digit inputs
are accepted as well. -/
theorem ymd_to_rfc2822_error_iff (s : String) :
    ((ymd_to_rfc2822 s).isOk = ymdLenient s) ∧
    (specValidYMD s = true → (ymd_to_rfc2822 s).isOk = true) := by
  constructor
  · rw [ymd_isOk_eq_parse, parseYmd_isSome_eq_lenient]
  · intro h
    rw [ymd_isOk_eq_parse, parseYmd_isSome_eq_lenient]
    exact specValid_lenient h

/-- Counterexample for C6: `'202011'` is not exactly 8 digits forming
a valid calendar date, yet the date normalizer returns without
raising (it parses as 2020-01-01). -/
theorem ymd_counterexample :
    specValidYMD "202011" = false ∧ (ymd_to_rfc2822 "202011").isOk = true := by
  constructor
  · decide
  · decide

/-- Witness for C6: the leap day 2020-02-29 is accepted. -/
theorem ymd_witness :
    specValidYMD "20200229" = true ∧ (ymd_to_rfc2822 "20200229").isOk = true :=
  ⟨by decide, (ymd_to_rfc2822_error_iff "20200229").2 (by decide)⟩

/-- Bind on a successful `Except Unit` computation. -/
theorem bind_ok_u {α β : Type} (a : α) (f : α → Except Unit β) :
    (Except.ok a >>= f) = f a := rfl

/-- Bind on a failed `Except Unit` computation. -/
theorem bind_err_u {α β : Type} (f : α → Except Unit β) :
    ((Except.error () : Except Unit α) >>= f) = .error () := rfl

/-- Concatenation preserves freedom from line breaks. -/
theorem noNL_append {a b : String} (ha : noNL a) (hb : noNL b) : noNL (a ++ b) := by
  unfold noNL at *
  rw [str_append_data]
  intro h
  rcases List.mem_append.mp h with h | h
  · exact ha h
  · exact hb h

theorem noNL_empty : noNL "" := by decide

theorem noNL_foldl {l : List String} {acc : String}
    (hacc : noNL acc) (hl : ∀ x ∈ l, noNL x) :
    noNL (l.foldl (· ++ ·) acc) := by
  induction l generalizing acc with
  | nil => exact hacc
  | cons a r ih =>
    simp only [List.foldl_cons]
    exact ih (noNL_append hacc (hl a (List.mem_cons_self _ _)))
      (fun x hx => hl x (List.mem_cons_of_mem _ hx))

theorem noNL_join {l : List String} (hl : ∀ x ∈ l, noNL x) : noNL (String.join l) :=
  noNL_foldl noNL_empty hl

theorem noNL_singleton {c : Char} (h : ¬ c = '\n') : noNL ⟨[c]⟩ := by
  unfold noNL
  intro hm
  rcases List.mem_singleton.mp hm with rfl
  exact h rfl

theorem noNL_escChar {c : Char} (h : ¬ c = '\n') : noNL (escChar c) := by
  unfold escChar
  split
  · decide
  · split
    · decide
    · split
      · decide
      · exact noNL_singleton h

theorem noNL_escape {s : String} (h : noNL s) : noNL (escape s) := by
  unfold escape
  apply noNL_join
  intro x hx
  obtain ⟨c, hc, hce⟩ := List.mem_map.mp hx
  rw [← hce]
  exact noNL_escChar (fun he => h (he ▸ hc))

theorem noNL_qaChar (c : Char) : noNL (qaChar c) := by
  unfold qaChar
  split
  · decide
  · split
    · decide
    · split
      · decide
      · split
        · decide
        · split
          · decide
          · split
            · decide
            · rename_i h1 h2 h3 h4 h5 h6
              exact noNL_singleton h4

theorem noNL_quoteattr (s : String) : noNL (quoteattr s) := by
  simp only [quoteattr]
  have hd : noNL (String.join (s.data.map qaChar)) := by
    apply noNL_join
    intro x hx
    obtain ⟨c, hc, hce⟩ := List.mem_map.mp hx
    rw [← hce]
    exact noNL_qaChar c
  split
  · split
    · apply noNL_append
      · apply noNL_append
        · decide
        · apply noNL_join
          intro x hx
          obtain ⟨c, hc, hce⟩ := List.mem_map.mp hx
          rw [← hce]
          split
          · decide
          · apply noNL_singleton
            intro he
            subst he
            exact hd hc
      · decide
    · apply noNL_append
      · apply noNL_append
        · decide
        · exact hd
      · decide
  · apply noNL_append
    · apply noNL_append
      · decide
      · exact hd
    · decide
-- endq

theorem noNL_getD_str {l : List String} {i : Nat} {d : String}
    (hl : ∀ x ∈ l, noNL x) (hd : noNL d) : noNL (l.getD i d) := by
  induction l generalizing i with
  | nil => exact hd
  | cons a r ih =>
    cases i with
    | zero => exact hl a (List.mem_cons_self _ _)
    | succ j =>
      simp only [List.getD_cons_succ]
      exact ih (fun x hx => hl x (List.mem_cons_of_mem _ hx))

theorem digitChr_ne_nl (n : Nat) : ¬ digitChr n = '\n' := by
  unfold digitChr
  have h9 : n % 10 < 10 := Nat.mod_lt n (by omega)
  interval_cases h : n % 10 <;> decide

theorem noNL_of_all {l : List Char} (h : ∀ c ∈ l, ¬ c = '\n') : noNL ⟨l⟩ := by
  unfold noNL
  intro hm
  exact h _ hm rfl

theorem noNL_pad2 (n : Nat) : noNL (pad2 n) := by
  unfold pad2
  apply noNL_of_all
  intro c hc
  simp only [List.mem_cons, List.not_mem_nil, or_false] at hc
  rcases hc with rfl | rfl <;> exact digitChr_ne_nl _

theorem noNL_pad4 (n : Nat) : noNL (pad4 n) := by
  unfold pad4
  apply noNL_of_all
  intro c hc
  simp only [List.mem_cons, List.not_mem_nil, or_false] at hc
  rcases hc with rfl | rfl | rfl | rfl <;> exact digitChr_ne_nl _

theorem noNL_weekName (i : Nat) : noNL (weekName i) := by
  unfold weekName
  apply noNL_getD_str
  · intro x hx
    simp only [List.mem_cons, List.not_mem_nil, or_false] at hx
    rcases hx with rfl | rfl | rfl | rfl | rfl | rfl | rfl <;> decide
  · decide

theorem noNL_monthName (m : Nat) : noNL (monthName m) := by
  unfold monthName
  apply noNL_getD_str
  · intro x hx
    simp only [List.mem_cons, List.not_mem_nil, or_false] at hx
    rcases hx with rfl | rfl | rfl | rfl | rfl | rfl | rfl | rfl | rfl | rfl | rfl | rfl <;>
      decide
  · decide

theorem noNL_fmtRfc2822 (y m d : Nat) : noNL (fmtRfc2822 y m d) := by
  unfold fmtRfc2822
  apply noNL_append
  apply noNL_append
  apply noNL_append
  apply noNL_append
  apply noNL_append
  apply noNL_append
  apply noNL_append
  · exact noNL_weekName _
  · decide
  · exact noNL_pad2 _
  · decide
  · exact noNL_monthName _
  · decide
  · exact noNL_pad4 _
  · decide

theorem noNL_natReprAux : ∀ n : Nat, ∀ c ∈ natReprAux n, ¬ c = '\n' := by
  intro n
  induction n using Nat.strong_induction_on with
  | _ n ih =>
    intro c hc
    rw [natReprAux] at hc
    split at hc
    · simp only [List.mem_cons, List.not_mem_nil, or_false] at hc
      subst hc
      exact digitChr_ne_nl _
    · rcases List.mem_append.mp hc with h | h
      · rename_i hge
        exact ih (n / 10) (Nat.div_lt_self (by omega) (by omega)) c h
      · simp only [List.mem_cons, List.not_mem_nil, or_false] at h
        subst h
        exact digitChr_ne_nl _

theorem noNL_natRepr (n : Nat) : noNL (natRepr n) :=
  noNL_of_all (noNL_natReprAux n)

theorem noNL_intRepr (i : Int) : noNL (intRepr i) := by
  unfold intRepr
  split
  · exact noNL_append (by decide) (noNL_natRepr _)
  · exact noNL_natRepr _

theorem ymd_ok_of_lenient {d : String} (h : ymdLenient d = true) :
    ∃ r, ymd_to_rfc2822 d = .ok r ∧ noNL r := by
  have hp : (parseYmd d).isSome = true := by
    rw [parseYmd_isSome_eq_lenient]
    exact h
  cases hpp : parseYmd d with
  | none => rw [hpp] at hp; exact Bool.noConfusion hp
  | some t =>
    obtain ⟨y, m, dd⟩ := t
    refine ⟨fmtRfc2822 y m dd, ?_, noNL_fmtRfc2822 y m dd⟩
    unfold ymd_to_rfc2822
    rw [hpp]

theorem pyMaxGo_spec :
    ∀ (l : List (Option String)) (m : String),
      (∀ x ∈ l, x.isSome = true) →
      ∃ D : String, pyMaxGo (some m) l = .ok (some D) ∧
        (D = m ∨ some D ∈ l) ∧ ¬ D < m ∧ (∀ s : String, some s ∈ l → ¬ D < s)
  | [], m, _ =>
    ⟨m, rfl, Or.inl rfl, lt_irrefl m, fun s hs => absurd hs (List.not_mem_nil _)⟩
  | y :: ys, m, hall => by
    cases y with
    | none => exact Bool.noConfusion (hall none (List.mem_cons_self _ _))
    | some b =>
      simp only [pyMaxGo]
      have hsplit : (if m < b then some b else some m) = some (if m < b then b else m) := by
        split <;> rfl
      rw [hsplit]
      obtain ⟨D, hgo, hmem, hge, hub⟩ := pyMaxGo_spec ys (if m < b then b else m)
        (fun x hx => hall x (List.mem_cons_of_mem _ hx))
      by_cases hlt : m < b
      · rw [if_pos hlt] at hgo hmem hge ⊢
        refine ⟨D, hgo, ?_, ?_, ?_⟩
        · rcases hmem with rfl | hmem
          · exact Or.inr (List.mem_cons_self _ _)
          · exact Or.inr (List.mem_cons_of_mem _ hmem)
        · intro hDm
          exact hge (lt_of_lt_of_le hDm (le_of_lt hlt))
        · intro s hs
          rcases List.mem_cons.mp hs with hsb | hs
          · rw [Option.some.inj hsb]
            exact hge
          · exact hub s hs
      · rw [if_neg hlt] at hgo hmem hge ⊢
        refine ⟨D, hgo, ?_, hge, ?_⟩
        · rcases hmem with rfl | hmem
          · exact Or.inl rfl
          · exact Or.inr (List.mem_cons_of_mem _ hmem)
        · intro s hs
          rcases List.mem_cons.mp hs with hsb | hs
          · rw [Option.some.inj hsb]
            intro hDb
            exact hge (lt_of_lt_of_le hDb (not_lt.mp hlt))
          · exact hub s hs

theorem pyMax_spec {l : List (Option String)} (hne : l ≠ [])
    (hall : ∀ x ∈ l, x.isSome = true) :
    ∃ D, pyMaxOptStr l = .ok (some D) ∧ some D ∈ l ∧ ∀ s, some s ∈ l → ¬ D < s := by
  cases l with
  | nil => exact absurd rfl hne
  | cons x xs =>
    cases x with
    | none => exact Bool.noConfusion (hall none (List.mem_cons_self _ _))
    | some a =>
      obtain ⟨D, hgo, hmem, hge, hub⟩ := pyMaxGo_spec xs a
        (fun x hx => hall x (List.mem_cons_of_mem _ hx))
      refine ⟨D, hgo, ?_, ?_⟩
      · rcases hmem with rfl | hmem
        · exact List.mem_cons_self _ _
        · exact List.mem_cons_of_mem _ hmem
      · intro s hs
        rcases List.mem_cons.mp hs with hsa | hs
        · rw [Option.some.inj hsa]
          exact hge
        · exact hub s hs

theorem noNL_of_ymd_ok {d r : String} (h : ymd_to_rfc2822 d = .ok r) : noNL r := by
  unfold ymd_to_rfc2822 at h
  cases hp : parseYmd d with
  | none => rw [hp] at h; exact Except.noConfusion h
  | some t =>
    obtain ⟨y, m, dd⟩ := t
    rw [hp] at h
    rw [← Except.ok.inj h]
    exact noNL_fmtRfc2822 y m dd


theorem noNL_ite {c : Prop} [Decidable c] {s t : String}
    (hs : noNL s) (ht : noNL t) : noNL (if c then s else t) := by
  split
  · exact hs
  · exact ht

theorem indent1Of_none : indent1Of none = "" := rfl

theorem indent2Of_none : indent2Of none = "" := rfl

theorem indent3Of_none : indent3Of none = "" := rfl

theorem eolOf_none : eolOf none = "" := rfl

theorem noNL_entryGuidPart (e : EntryRec)
    (hid : noNL e.id) (hw : ∀ s, e.webpage_url = some s → noNL s) :
    noNL (entryGuidPart e none) := by
  unfold entryGuidPart
  rw [indent3Of_none, eolOf_none]
  split
  · refine noNL_append (noNL_append (noNL_append (by decide) ?_) (by decide)) (by decide)
    apply noNL_escape
    cases hw0 : e.webpage_url with
    | none => exact noNL_empty
    | some s => exact hw s hw0
  · exact noNL_append (noNL_append (noNL_append (by decide) (noNL_escape hid)) (by decide))
      (by decide)

theorem noNL_entryTitlePart (e : EntryRec)
    (ht : ∀ s, e.title = some s → noNL s) : noNL (entryTitlePart e none) := by
  unfold entryTitlePart
  cases ht0 : e.title with
  | none => exact noNL_empty
  | some t =>
    rw [indent3Of_none, eolOf_none]
    exact noNL_append (noNL_append (noNL_append (by decide) (noNL_escape (ht t ht0)))
      (by decide)) (by decide)

theorem noNL_entryEnclosurePart (rp : ResolveP) (e : EntryRec) (rssName : String)
    (base : Option String) : noNL (entryEnclosurePart rp e rssName base none) := by
  unfold entryEnclosurePart
  rw [indent3Of_none, eolOf_none]
  refine noNL_append (noNL_append (noNL_append (noNL_append (noNL_append
    (noNL_append (by decide) (noNL_quoteattr _)) ?_) (by decide)) (noNL_quoteattr _))
    (by decide)) (by decide)
  cases e.filesize with
  | none => exact noNL_empty
  | some fs => exact noNL_append (by decide) (noNL_quoteattr _)

theorem noNL_entryThumbPart (ru : ResolveU) (e : EntryRec) (rssName : String)
    (base : Option String) : noNL (entryThumbPart ru e rssName base none) := by
  unfold entryThumbPart
  cases e.thumbnail with
  | none => exact noNL_empty
  | some t =>
    rw [indent3Of_none, eolOf_none]
    exact noNL_append (noNL_append (noNL_append (by decide) (noNL_quoteattr _))
      (by decide)) (by decide)

theorem noNL_entryDurationPart (e : EntryRec) : noNL (entryDurationPart e none) := by
  unfold entryDurationPart
  cases e.duration with
  | none => exact noNL_empty
  | some dur =>
    rw [indent3Of_none, eolOf_none]
    exact noNL_append (noNL_append (noNL_append (by decide) (noNL_intRepr _))
      (by decide)) (by decide)

theorem noNL_entryAgePart (e : EntryRec) : noNL (entryAgePart e none) := by
  unfold entryAgePart
  cases e.age_limit with
  | none => exact noNL_empty
  | some a =>
    rw [indent3Of_none, eolOf_none]
    exact noNL_append (noNL_append (noNL_append (by decide)
      (noNL_ite (by decide) (by decide))) (by decide)) (by decide)

theorem noNL_entryDescPart (e : EntryRec)
    (hd : ∀ s, e.description = some s → noNL s) : noNL (entryDescPart e none) := by
  unfold entryDescPart
  cases hd0 : e.description with
  | none => exact noNL_empty
  | some dsc =>
    rw [indent3Of_none, eolOf_none]
    exact noNL_append (noNL_append (noNL_append (by decide) (noNL_escape (hd dsc hd0)))
      (by decide)) (by decide)

theorem entryPubDatePart_ok (e : EntryRec) (indent : Option String)
    (hd : ∀ d, e.upload_date = some d → ymdLenient d = true) :
    ∃ s, entryPubDatePart e indent = .ok s ∧
      (indent = none → noNL s) := by
  cases hud : e.upload_date with
  | none =>
    refine ⟨"", ?_, fun _ => noNL_empty⟩
    simp only [entryPubDatePart, hud]
    rfl
  | some d =>
    obtain ⟨r, hr, hnr⟩ := ymd_ok_of_lenient (hd d hud)
    refine ⟨indent3Of indent ++ "<pubDate>" ++ r ++ "</pubDate>" ++ eolOf indent, ?_, ?_⟩
    · simp only [entryPubDatePart, hud, hr]
      rfl
    · intro hin
      subst hin
      rw [indent3Of_none, eolOf_none]
      exact noNL_append (noNL_append (noNL_append (noNL_append noNL_empty (by decide))
        hnr) (by decide)) noNL_empty

theorem entry_to_rss_spec (rp : ResolveP) (ru : ResolveU) (e : EntryRec)
    (rssName : String) (base indent : Option String)
    (hd : ∀ d, e.upload_date = some d → ymdLenient d = true) :
    ∃ out, entry_to_rss rp ru e rssName base indent = .ok out ∧
      (indent = none → noNL e.id → (∀ s, e.webpage_url = some s → noNL s) →
        (∀ s, e.title = some s → noNL s) → (∀ s, e.description = some s → noNL s) →
        noNL out) := by
  obtain ⟨s, hs, hns⟩ := entryPubDatePart_ok e indent hd
  refine ⟨indent2Of indent ++ "<item>" ++ eolOf indent
    ++ entryGuidPart e indent ++ entryTitlePart e indent ++ s
    ++ entryEnclosurePart rp e rssName base indent
    ++ entryThumbPart ru e rssName base indent
    ++ entryDurationPart e indent ++ entryAgePart e indent ++ entryDescPart e indent
    ++ indent2Of indent ++ "</item>" ++ eolOf indent, ?_, ?_⟩
  · simp only [entry_to_rss, hs]
    rfl
  · intro hin hid hw ht hdesc
    subst hin
    rw [indent2Of_none, eolOf_none]
    exact noNL_append (noNL_append (noNL_append (noNL_append (noNL_append (noNL_append
      (noNL_append (noNL_append (noNL_append (noNL_append (noNL_append (noNL_append
      (noNL_append noNL_empty (by decide)) noNL_empty)
      (noNL_entryGuidPart e hid hw)) (noNL_entryTitlePart e ht)) (hns rfl))
      (noNL_entryEnclosurePart rp e rssName base))
      (noNL_entryThumbPart ru e rssName base)) (noNL_entryDurationPart e))
      (noNL_entryAgePart e)) (noNL_entryDescPart e hdesc)) noNL_empty)
      (by decide)) noNL_empty

theorem itemsLoop_spec (rp : ResolveP) (ru : ResolveU) :
    ∀ (entries : List EntryRec) (rssName : String) (base indent : Option String),
      (∀ e ∈ entries, ∀ d, e.upload_date = some d → ymdLenient d = true) →
      ∃ out, itemsLoop rp ru entries rssName base indent = .ok out ∧
        (indent = none →
          (∀ e ∈ entries, noNL e.id ∧ (∀ s, e.webpage_url = some s → noNL s) ∧
            (∀ s, e.title = some s → noNL s) ∧ (∀ s, e.description = some s → noNL s)) →
          noNL out)
  | [], rssName, base, indent, _ => ⟨"", rfl, fun _ _ => noNL_empty⟩
  | e :: rest, rssName, base, indent, hd => by
    obtain ⟨s, hs, hns⟩ := entry_to_rss_spec rp ru e rssName base indent
      (hd e (List.mem_cons_self _ _))
    obtain ⟨t, ht2, hnt⟩ := itemsLoop_spec rp ru rest rssName base indent
      (fun e1 he1 => hd e1 (List.mem_cons_of_mem _ he1))
    refine ⟨s ++ t, ?_, ?_⟩
    · simp only [itemsLoop, hs, ht2]
      rfl
    · intro hin hall
      obtain ⟨h1, h2, h3, h4⟩ := hall e (List.mem_cons_self _ _)
      exact noNL_append (hns hin h1 h2 h3 h4)
        (hnt hin (fun e1 he1 => hall e1 (List.mem_cons_of_mem _ he1)))

/-- In compact mode a successful item date element has no line break. -/
theorem entryPubDatePart_noNL_of_ok {e : EntryRec} {s : String}
    (h : entryPubDatePart e none = .ok s) : noNL s := by
  cases hud : e.upload_date with
  | none =>
    simp only [entryPubDatePart, hud] at h
    have hs := Except.ok.inj h
    rw [← hs]
    exact noNL_empty
  | some d =>
    cases hy : ymd_to_rfc2822 d with
    | error u =>
      simp only [entryPubDatePart, hud, hy] at h
      exact Except.noConfusion h
    | ok r =>
      simp only [entryPubDatePart, hud, hy] at h
      have hs := Except.ok.inj h
      rw [← hs, indent3Of_none, eolOf_none]
      exact noNL_append (noNL_append (noNL_append (noNL_append noNL_empty (by decide))
        (noNL_of_ymd_ok hy)) (by decide)) noNL_empty

/-- In compact mode a successful item serialization with line-break-free text fields has no line break. -/
theorem entry_to_rss_noNL_of_ok {rp : ResolveP} {ru : ResolveU} {e : EntryRec}
    {rssName : String} {base : Option String} {out : String}
    (h : entry_to_rss rp ru e rssName base none = .ok out)
    (hid : noNL e.id) (hw : ∀ s, e.webpage_url = some s → noNL s)
    (ht : ∀ s, e.title = some s → noNL s)
    (hdesc : ∀ s, e.description = some s → noNL s) : noNL out := by
  cases hpp : entryPubDatePart e none with
  | error u =>
    simp only [entry_to_rss, hpp] at h
    exact Except.noConfusion h
  | ok s =>
    simp only [entry_to_rss, hpp] at h
    have hs := Except.ok.inj h
    rw [← hs, indent2Of_none, eolOf_none]
    exact noNL_append (noNL_append (noNL_append (noNL_append (noNL_append (noNL_append
      (noNL_append (noNL_append (noNL_append (noNL_append (noNL_append (noNL_append
      (noNL_append noNL_empty (by decide)) noNL_empty)
      (noNL_entryGuidPart e hid hw)) (noNL_entryTitlePart e ht))
      (entryPubDatePart_noNL_of_ok hpp))
      (noNL_entryEnclosurePart rp e rssName base))
      (noNL_entryThumbPart ru e rssName base)) (noNL_entryDurationPart e))
      (noNL_entryAgePart e)) (noNL_entryDescPart e hdesc)) noNL_empty)
      (by decide)) noNL_empty

/-- In compact mode the successful item loop output has no line break when every entry has line-break-free text fields. -/
theorem itemsLoop_noNL_of_ok {rp : ResolveP} {ru : ResolveU} :
    ∀ {entries : List EntryRec} {rssName : String} {base : Option String} {out : String},
      itemsLoop rp ru entries rssName base none = .ok out →
      (∀ e ∈ entries, noNL e.id ∧ (∀ s, e.webpage_url = some s → noNL s) ∧
        (∀ s, e.title = some s → noNL s) ∧ (∀ s, e.description = some s → noNL s)) →
      noNL out
  | [], rssName, base, out, h, _ => by
    have hs := Except.ok.inj h
    rw [← hs]
    exact noNL_empty
  | e :: rest, rssName, base, out, h, hall => by
    cases he : entry_to_rss rp ru e rssName base none with
    | error u =>
      simp only [itemsLoop, he] at h
      exact Except.noConfusion h
    | ok s =>
      cases hr : itemsLoop rp ru rest rssName base none with
      | error u =>
        simp only [itemsLoop, he, hr] at h
        exact Except.noConfusion h
      | ok t =>
        simp only [itemsLoop, he, hr] at h
        have hs := Except.ok.inj h
        rw [← hs]
        obtain ⟨h1, h2, h3, h4⟩ := hall e (List.mem_cons_self _ _)
        exact noNL_append (entry_to_rss_noNL_of_ok he h1 h2 h3 h4)
          (itemsLoop_noNL_of_ok hr (fun e1 he1 => hall e1 (List.mem_cons_of_mem _ he1)))

/-- The compact-mode document head has no line break. -/
theorem noNL_playlistHead : noNL (playlistHead none) := by decide

/-- The compact-mode generator element has no line break. -/
theorem noNL_generatorPart : noNL (generatorPart none) := by decide

/-- The compact-mode channel metadata has no line break when the present fields are line-break free. -/
theorem noNL_chanMetaPart (p : PlaylistRec)
    (ht : ∀ s, p.title = some s → noNL s)
    (hd : ∀ s, p.description = some s → noNL s)
    (hu : ∀ s, p.uploader = some s → noNL s)
    (hw : ∀ s, p.webpage_url = some s → noNL s) : noNL (chanMetaPart p none) := by
  simp only [chanMetaPart, indent2Of_none, eolOf_none]
  refine noNL_append (noNL_append (noNL_append ?_ ?_) ?_) ?_
  · cases hx : p.title with
    | none => exact noNL_empty
    | some t =>
      exact noNL_append (noNL_append (noNL_append (noNL_append noNL_empty (by decide))
        (noNL_escape (ht t hx))) (by decide)) noNL_empty
  · cases hx : p.description with
    | none => exact noNL_empty
    | some t =>
      exact noNL_append (noNL_append (noNL_append (noNL_append noNL_empty (by decide))
        (noNL_escape (hd t hx))) (by decide)) noNL_empty
  · cases hx : p.uploader with
    | none => exact noNL_empty
    | some t =>
      exact noNL_append (noNL_append (noNL_append (noNL_append noNL_empty (by decide))
        (noNL_escape (hu t hx))) (by decide)) noNL_empty
  · cases hx : p.webpage_url with
    | none => exact noNL_empty
    | some t =>
      exact noNL_append (noNL_append (noNL_append (noNL_append noNL_empty (by decide))
        (noNL_escape (hw t hx))) (by decide)) noNL_empty

/-- The compact-mode channel image block has no line break when the resolved thumbnail, title and link are line-break free. -/
theorem noNL_chanThumbPart (ru : ResolveU) (p : PlaylistRec) (rssName : String)
    (base : Option String)
    (hth : ∀ t, p.thumbnail = some t → noNL (ru t p.json_path rssName base))
    (ht : ∀ s, p.title = some s → noNL s)
    (hw : ∀ s, p.webpage_url = some s → noNL s) :
    noNL (chanThumbPart ru p rssName base none) := by
  simp only [chanThumbPart, indent2Of_none, indent3Of_none, eolOf_none]
  cases hx : p.thumbnail with
  | none => exact noNL_empty
  | some t0 =>
    have hA : noNL (escape (ru t0 p.json_path rssName base)) := noNL_escape (hth t0 hx)
    have hM1 : noNL (match p.title with
        | some ti => "" ++ "<title>" ++ escape ti ++ "</title>" ++ ""
        | none => "") := by
      cases hy : p.title with
      | none => exact noNL_empty
      | some ti =>
        exact noNL_append (noNL_append (noNL_append (noNL_append noNL_empty (by decide))
          (noNL_escape (ht ti hy))) (by decide)) noNL_empty
    have hM2 : noNL (match p.webpage_url with
        | some w => "" ++ "<link>" ++ escape w ++ "</link>" ++ ""
        | none => "") := by
      cases hy : p.webpage_url with
      | none => exact noNL_empty
      | some w =>
        exact noNL_append (noNL_append (noNL_append (noNL_append noNL_empty (by decide))
          (noNL_escape (hw w hy))) (by decide)) noNL_empty
    exact noNL_append (noNL_append (noNL_append (noNL_append (noNL_append (noNL_append
      (noNL_append (noNL_append (noNL_append (noNL_append (noNL_append (noNL_append
      (noNL_append (noNL_append (noNL_append (noNL_append (noNL_append
      noNL_empty (by decide)) noNL_empty) noNL_empty) (by decide)) hA) (by decide))
      noNL_empty) hM1) hM2) noNL_empty) (by decide)) noNL_empty) noNL_empty)
      (by decide)) (noNL_quoteattr _)) (by decide)) noNL_empty

/-- The compact-mode channel explicitness element has no line break. -/
theorem noNL_chanExplicitPart (p : PlaylistRec) : noNL (chanExplicitPart p none) := by
  simp only [chanExplicitPart, indent2Of_none, eolOf_none]
  split
  · exact noNL_append (noNL_append (noNL_append (noNL_append noNL_empty (by decide))
      (noNL_ite (by decide : noNL "yes") (by decide : noNL "clean"))) (by decide))
      noNL_empty
  · exact noNL_empty

/-- The compact-mode self link has no line break (the base URL is attribute-quoted). -/
theorem noNL_chanSelfLinkPart (base : Option String) :
    noNL (chanSelfLinkPart base none) := by
  simp only [chanSelfLinkPart, indent2Of_none, eolOf_none]
  cases base with
  | none => exact noNL_empty
  | some b =>
    exact noNL_ite (noNL_append (noNL_append (noNL_append (noNL_append noNL_empty
      (by decide : noNL "<atom:link rel=\"self\" type=\"application/rss+xml\" href="))
      (noNL_quoteattr _)) (by decide : noNL "/>")) noNL_empty) noNL_empty

/-- In compact mode a successful channel date element has no line break. -/
theorem chanPubDatePart_noNL_of_ok {p : PlaylistRec} {s : String}
    (h : chanPubDatePart p none = .ok s) : noNL s := by
  cases hud : p.upload_date with
  | some d =>
    cases hy : ymd_to_rfc2822 d with
    | error u =>
      simp only [chanPubDatePart, hud, pure, Except.pure, bind_ok_u, bind_err_u, hy] at h
      exact Except.noConfusion h
    | ok r =>
      simp only [chanPubDatePart, hud, pure, Except.pure, bind_ok_u, bind_err_u, hy] at h
      have hs := Except.ok.inj h
      rw [← hs, indent2Of_none, eolOf_none]
      exact noNL_append (noNL_append (noNL_append (noNL_append noNL_empty (by decide))
        (noNL_of_ymd_ok hy)) (by decide)) noNL_empty
  | none =>
    cases hmx : pyMaxOptStr (p.entries.map fun e => e.upload_date) with
    | error u =>
      simp only [chanPubDatePart, hud, pure, Except.pure, bind_ok_u, bind_err_u, hmx] at h
      exact Except.noConfusion h
    | ok ud =>
      cases ud with
      | none =>
        simp only [chanPubDatePart, hud, pure, Except.pure, bind_ok_u, bind_err_u, hmx] at h
        have hs := Except.ok.inj h
        rw [← hs]
        exact noNL_empty
      | some d =>
        cases hy : ymd_to_rfc2822 d with
        | error u =>
          simp only [chanPubDatePart, hud, pure, Except.pure, bind_ok_u, bind_err_u, hmx, hy] at h
          exact Except.noConfusion h
        | ok r =>
          simp only [chanPubDatePart, hud, pure, Except.pure, bind_ok_u, bind_err_u, hmx, hy] at h
          have hs := Except.ok.inj h
          rw [← hs, indent2Of_none, eolOf_none]
          exact noNL_append (noNL_append (noNL_append (noNL_append noNL_empty (by decide))
            (noNL_of_ymd_ok hy)) (by decide)) noNL_empty

/-- With an explicit parseable playlist `upload_date` the channel date element is emitted from it. -/
theorem chanPubDatePart_explicit (p : PlaylistRec) (ind : Option String) (d : String)
    (hud : p.upload_date = some d) (hl : ymdLenient d = true) :
    ∃ r, ymd_to_rfc2822 d = .ok r ∧
      chanPubDatePart p ind
        = .ok (indent2Of ind ++ "<pubDate>" ++ r ++ "</pubDate>" ++ eolOf ind) := by
  obtain ⟨r, hr, -⟩ := ymd_ok_of_lenient hl
  refine ⟨r, hr, ?_⟩
  simp only [chanPubDatePart, hud, hr, pure, Except.pure, bind_ok_u, bind_err_u]

/-- Without an explicit playlist date, the channel date element comes from the maximum entry date: the emitted date is one of the entry dates and no entry date exceeds it. -/
theorem chanPubDatePart_max (p : PlaylistRec) (ind : Option String)
    (hud : p.upload_date = none) (hne : p.entries ≠ [])
    (hall : ∀ e ∈ p.entries, (e.upload_date).isSome = true)
    (hdates : ∀ e ∈ p.entries, ∀ de, e.upload_date = some de → ymdLenient de = true) :
    ∃ D r, some D ∈ p.entries.map (fun e => e.upload_date) ∧
      (∀ e ∈ p.entries, ∀ de, e.upload_date = some de → ¬ D < de) ∧
      ymd_to_rfc2822 D = .ok r ∧
      chanPubDatePart p ind
        = .ok (indent2Of ind ++ "<pubDate>" ++ r ++ "</pubDate>" ++ eolOf ind) := by
  have hmapne : p.entries.map (fun e => e.upload_date) ≠ [] := by
    intro hmap
    exact hne (List.map_eq_nil_iff.mp hmap)
  have hallm : ∀ x ∈ p.entries.map (fun e => e.upload_date), x.isSome = true := by
    intro x hx
    obtain ⟨e, he, hfe⟩ := List.mem_map.mp hx
    rw [← hfe]
    exact hall e he
  obtain ⟨D, hmax, hmem, hub⟩ := pyMax_spec hmapne hallm
  obtain ⟨e0, he0, heq⟩ := List.mem_map.mp hmem
  obtain ⟨r, hr, -⟩ := ymd_ok_of_lenient (hdates e0 he0 D heq)
  refine ⟨D, r, hmem, ?_, hr, ?_⟩
  · intro e he de hde
    exact hub de (List.mem_map.mpr ⟨e, he, hde⟩)
  · simp only [chanPubDatePart, hud, hmax, hr, pure, Except.pure, bind_ok_u, bind_err_u]

/-- C7 (amended): the channel `<pubDate>` is the explicit collection
`upload_date` when present; otherwise it is the maximum `upload_date`
across the items (a date carried by some item that no item date
exceeds).  Serialization succeeds when all item dates parse and, for the
fallback, there is at least one item.  The unamended claim fails on a
collection with no items: `max` of an empty sequence raises. -/
theorem chan_pubdate_spec (rp : ResolveP) (ru : ResolveU) (p : PlaylistRec)
    (rssName : String) (base ind : Option String)
    (hentries : ∀ e ∈ p.entries, ∀ de, e.upload_date = some de → ymdLenient de = true) :
    (∀ d, p.upload_date = some d → ymdLenient d = true →
      ∃ r post, ymd_to_rfc2822 d = .ok r ∧
        playlist_to_rss rp ru p rssName base ind
          = .ok (playlistHead ind ++ chanMetaPart p ind
              ++ (indent2Of ind ++ "<pubDate>" ++ r ++ "</pubDate>" ++ eolOf ind)
              ++ post)) ∧
    (p.upload_date = none → p.entries ≠ [] →
      (∀ e ∈ p.entries, (e.upload_date).isSome = true) →
      ∃ D r post, some D ∈ p.entries.map (fun e => e.upload_date) ∧
        (∀ e ∈ p.entries, ∀ de, e.upload_date = some de → ¬ D < de) ∧
        ymd_to_rfc2822 D = .ok r ∧
        playlist_to_rss rp ru p rssName base ind
          = .ok (playlistHead ind ++ chanMetaPart p ind
              ++ (indent2Of ind ++ "<pubDate>" ++ r ++ "</pubDate>" ++ eolOf ind)
              ++ post)) := by
  obtain ⟨items, hitems, -⟩ := itemsLoop_spec rp ru p.entries rssName base ind hentries
  constructor
  · intro d hud hl
    obtain ⟨r, hr, hpub⟩ := chanPubDatePart_explicit p ind d hud hl
    refine ⟨r, chanThumbPart ru p rssName base ind ++ chanExplicitPart p ind
      ++ chanSelfLinkPart base ind ++ generatorPart ind ++ items
      ++ indent1Of ind ++ "</channel>" ++ eolOf ind ++ "</rss>\n", hr, ?_⟩
    simp only [playlist_to_rss, hpub, hitems, pure, Except.pure, bind_ok_u, bind_err_u]
    exact congrArg Except.ok (by simp only [String.append_assoc])
  · intro hud hne hall
    obtain ⟨D, r, hmem, hmax, hr, hpub⟩ := chanPubDatePart_max p ind hud hne hall hentries
    refine ⟨D, r, chanThumbPart ru p rssName base ind ++ chanExplicitPart p ind
      ++ chanSelfLinkPart base ind ++ generatorPart ind ++ items
      ++ indent1Of ind ++ "</channel>" ++ eolOf ind ++ "</rss>\n", hmem, hmax, hr, ?_⟩
    simp only [playlist_to_rss, hpub, hitems, pure, Except.pure, bind_ok_u, bind_err_u]
    exact congrArg Except.ok (by simp only [String.append_assoc])

/-- Counterexample for C7: a collection with no items whose entries
vacuously each carry an `upload_date`; serialization fails instead of
succeeding (`max` raises `ValueError` on an empty sequence). -/
theorem chan_pubdate_counterexample :
    (∀ e ∈ ({ entries := [] } : PlaylistRec).entries, (e.upload_date).isSome = true) ∧
    playlist_to_rss (fun q _ _ _ => q) (fun u _ _ _ => u) { entries := [] } "o" none none
      = .error () := by
  constructor
  · intro e he
    exact absurd he (List.not_mem_nil _)
  · rfl

/-- C7 (amended): the channel `<pubDate>` is the explicit collection
`upload_date` when present; otherwise it is the maximum `upload_date`
across the items (a date carried by some item that no item date
exceeds).  Serialization succeeds when all item dates parse and, for the
fallback, there is at least one item.  The unamended claim fails on a
collection with no items: `max` of an empty sequence raises. -/
theorem chan_pubdate_spec_witness :
    ∃ D r post,
      some D ∈ ([{ id := "a", upload_date := some "20200101" },
                 { id := "b", upload_date := some "20200301" }] : List EntryRec).map
          (fun e => e.upload_date) ∧
      (∀ e ∈ ([{ id := "a", upload_date := some "20200101" },
               { id := "b", upload_date := some "20200301" }] : List EntryRec),
        ∀ de, e.upload_date = some de → ¬ D < de) ∧
      ymd_to_rfc2822 D = .ok r ∧
      playlist_to_rss (fun q _ _ _ => q) (fun u _ _ _ => u)
        { entries := [{ id := "a", upload_date := some "20200101" },
                      { id := "b", upload_date := some "20200301" }] } "o" none none
        = .ok (playlistHead none
            ++ chanMetaPart
              { entries := [{ id := "a", upload_date := some "20200101" },
                            { id := "b", upload_date := some "20200301" }] } none
            ++ (indent2Of none ++ "<pubDate>" ++ r ++ "</pubDate>" ++ eolOf none)
            ++ post) := by
  refine (chan_pubdate_spec (fun q _ _ _ => q) (fun u _ _ _ => u)
    { entries := [{ id := "a", upload_date := some "20200101" },
                  { id := "b", upload_date := some "20200301" }] } "o" none none ?_).2
    rfl ?_ ?_
  · intro e he de hde
    rcases List.mem_cons.mp he with rfl | he2
    · rw [← Option.some.inj hde]
      decide
    rcases List.mem_cons.mp he2 with rfl | he3
    · rw [← Option.some.inj hde]
      decide
    · exact absurd he3 (List.not_mem_nil _)
  · exact List.cons_ne_nil _ _
  · intro e he
    rcases List.mem_cons.mp he with rfl | he2
    · rfl
    rcases List.mem_cons.mp he2 with rfl | he3
    · rfl
    · exact absurd he3 (List.not_mem_nil _)

/-- C8 (amended): with no indent unit the serialized document is a
single line with no added whitespace, terminated by one final line
break after the closing `</rss>` tag: the output splits as a
line-break-free body followed by a newline.  The unamended claim (no
line-break characters anywhere) fails on that final newline, which the
serializer writes unconditionally. -/
theorem rss_compact_single_line (rp : ResolveP) (ru : ResolveU) (p : PlaylistRec)
    (rssName : String) (base : Option String) (out : String)
    (ht : ∀ s, p.title = some s → noNL s)
    (hd : ∀ s, p.description = some s → noNL s)
    (hu : ∀ s, p.uploader = some s → noNL s)
    (hw : ∀ s, p.webpage_url = some s → noNL s)
    (hth : ∀ t, p.thumbnail = some t → noNL (ru t p.json_path rssName base))
    (he : ∀ e ∈ p.entries, noNL e.id ∧ (∀ s, e.webpage_url = some s → noNL s) ∧
      (∀ s, e.title = some s → noNL s) ∧ (∀ s, e.description = some s → noNL s))
    (hok : playlist_to_rss rp ru p rssName base none = .ok out) :
    ∃ body, out = body ++ "\n" ∧ noNL body := by
  cases hpub : chanPubDatePart p none with
  | error u =>
    simp only [playlist_to_rss, hpub, bind_err_u] at hok
    exact Except.noConfusion hok
  | ok pub =>
  cases hitems : itemsLoop rp ru p.entries rssName base none with
  | error u =>
    simp only [playlist_to_rss, hpub, hitems, bind_ok_u, bind_err_u] at hok
    exact Except.noConfusion hok
  | ok items =>
    simp only [playlist_to_rss, hpub, hitems, pure, Except.pure, bind_ok_u, bind_err_u]
      at hok
    have hout := Except.ok.inj hok
    refine ⟨playlistHead none ++ chanMetaPart p none ++ pub
      ++ chanThumbPart ru p rssName base none ++ chanExplicitPart p none
      ++ chanSelfLinkPart base none ++ generatorPart none ++ items
      ++ indent1Of none ++ "</channel>" ++ eolOf none ++ "</rss>", ?_, ?_⟩
    · rw [← hout]
      rw [show ("</rss>\n" : String) = "</rss>" ++ "\n" from rfl]
      simp only [String.append_assoc]
    · exact noNL_append (noNL_append (noNL_append (noNL_append (noNL_append (noNL_append
        (noNL_append (noNL_append (noNL_append (noNL_append (noNL_append
        noNL_playlistHead (noNL_chanMetaPart p ht hd hu hw))
        (chanPubDatePart_noNL_of_ok hpub))
        (noNL_chanThumbPart ru p rssName base hth ht hw))
        (noNL_chanExplicitPart p)) (noNL_chanSelfLinkPart base)) noNL_generatorPart)
        (itemsLoop_noNL_of_ok hitems he)) (by decide)) (by decide : noNL "</channel>"))
        (by decide)) (by decide : noNL "</rss>")

/-- Counterexample for C8: a successful compact-mode run whose output
contains a line-break character (the file-terminating newline written
with the closing tag). -/
theorem rss_compact_counterexample :
    (match playlist_to_rss (fun q _ _ _ => q) (fun u _ _ _ => u)
        { title := some "T", upload_date := some "20200101", entries := [{ id := "a" }] }
        "o" none none with
      | .ok s => s.data.contains '\n'
      | .error _ => false) = true := by decide

set_option maxRecDepth 10000 in
/-- C8 (amended): with no indent unit the serialized document is a
single line with no added whitespace, terminated by one final line
break after the closing `</rss>` tag: the output splits as a
line-break-free body followed by a newline.  The unamended claim (no
line-break characters anywhere) fails on that final newline, which the
serializer writes unconditionally. -/
theorem rss_compact_single_line_witness :
    ∃ body,
      ("<rss version=\"2.0\" xmlns:atom=\"http://www.w3.org/2005/Atom\" xmlns:itunes=\"http://www.itunes.com/dtds/podcast-1.0.dtd\"><channel><title>T</title><pubDate>Wed, 01 Jan 2020 00:00:00 -0000</pubDate><generator>ytdl2rss.py 0.1.0</generator><item><guid>a</guid><enclosure type=\"video/\" url=\"\"/></item></channel></rss>\n"
        : String) = body ++ "\n" ∧ noNL body :=
  rss_compact_single_line (fun q _ _ _ => q) (fun u _ _ _ => u)
    { title := some "T", upload_date := some "20200101", entries := [{ id := "a" }] }
    "o" none
    "<rss version=\"2.0\" xmlns:atom=\"http://www.w3.org/2005/Atom\" xmlns:itunes=\"http://www.itunes.com/dtds/podcast-1.0.dtd\"><channel><title>T</title><pubDate>Wed, 01 Jan 2020 00:00:00 -0000</pubDate><generator>ytdl2rss.py 0.1.0</generator><item><guid>a</guid><enclosure type=\"video/\" url=\"\"/></item></channel></rss>\n"
    (fun s hs => by rw [← Option.some.inj hs]; decide)
    (fun s hs => Option.noConfusion hs)
    (fun s hs => Option.noConfusion hs)
    (fun s hs => Option.noConfusion hs)
    (fun t hth => Option.noConfusion hth)
    (by
      intro e hee
      rcases List.mem_cons.mp hee with rfl | h2
      · exact ⟨by decide, fun s hs => Option.noConfusion hs,
          fun s hs => Option.noConfusion hs, fun s hs => Option.noConfusion hs⟩
      · exact absurd h2 (List.not_mem_nil _))
    rfl
